import Mathlib

/-
Verification of the CKY parser repository (src/grammar.py, src/cky.py).

The Python source is shallowly embedded below.  Probabilities are modelled as
exact rationals (the source uses floating point numbers; every numeric claim
checked here is far from any rounding boundary, so exact arithmetic is the
intended idealisation).  Python dictionaries are modelled as insertion ordered
association lists, because iteration order and the overwrite in place
behaviour of d[k] = v are observable through the tie breaking behaviour of the
parser.
-/

namespace CKY

/-- Grammar symbols and terminals are strings, as in the Python source. -/
abbrev Symbol := String

/-- A grammar rule, the triple (lhs, rhs, prob) produced by parse_rule in
grammar.py (lines 29-35). -/
structure Rule where
  lhs : Symbol
  rhs : List Symbol
  prob : ℚ
deriving DecidableEq

/-- The grammar object of grammar.py after read_rules has run: the list of
rules in file order plus the declared start symbol.  The two lookup indices
rhs_to_rules and lhs_to_rules are defaultdict(list) maps filled by appending
each rule in file order (grammar.py lines 16-27), so each index entry is an
order preserving filter of the rule list. -/
structure Pcfg where
  rules : List Rule
  startsymbol : Symbol

/-- grammar.py line 23: rhs_to_rules[rhs] lists the rules with the given
right hand side, in file order.  A missing key yields the empty list and
never an error, because the index is a defaultdict(list). -/
def Pcfg.rhs_to_rules (g : Pcfg) (rhs : List Symbol) : List Rule :=
  g.rules.filter (fun r => decide (r.rhs = rhs))

/-- grammar.py line 24: lhs_to_rules[lhs] lists the rules with the given
left hand side, in file order. -/
def Pcfg.lhs_to_rules (g : Pcfg) (lhs : Symbol) : List Rule :=
  g.rules.filter (fun r => decide (r.lhs = lhs))

/-- The key list of the dictionary lhs_to_rules, that is the left hand side
symbols that occur in at least one rule (iteration order of the Python
dictionary does not influence any boolean computed from it). -/
def Pcfg.lhsKeys (g : Pcfg) : List Symbol :=
  (g.rules.map Rule.lhs).dedup

/-- The default relative tolerance of math.isclose, 1e-9. -/
def relTol : ℚ := 1 / 1000000000

/-- math.isclose(a, b) with default tolerances: abs(a-b) is at most
max(rel_tol * max(abs(a), abs(b)), abs_tol) with rel_tol = 1e-9 and
abs_tol = 0. -/
def isclose (a b : ℚ) : Bool :=
  decide (|a - b| ≤ max (relTol * max |a| |b|) 0)

/-- grammar.py lines 37-48: for every left hand side, sum the probabilities
of its rules (math.fsum, which the exact model renders as the exact sum) and
test closeness to 1.0; return false on the first violation. -/
def Pcfg.verify_grammar (g : Pcfg) : Bool :=
  g.lhsKeys.all (fun key => isclose (((g.lhs_to_rules key).map Rule.prob).sum) 1)

/-- A Python dictionary as an insertion ordered association list. -/
abbrev Dict (κ α : Type) := List (κ × α)

/-- d[k] as an optional lookup (none models a KeyError). -/
def dget {κ α : Type} [DecidableEq κ] : Dict κ α → κ → Option α
  | [], _ => none
  | (k₀, v₀) :: d, k => if k = k₀ then some v₀ else dget d k

/-- d[k] = v: overwrite in place when the key is present (keeping its
position, as Python dictionaries do), append otherwise. -/
def dset {κ α : Type} [DecidableEq κ] : Dict κ α → κ → α → Dict κ α
  | [], k, v => [(k, v)]
  | (k₀, v₀) :: d, k, v => if k = k₀ then (k, v) :: d else (k₀, v₀) :: dset d k v

/-- d.pop(k): remove the entry with the given key. -/
def dpop {κ α : Type} [DecidableEq κ] : Dict κ α → κ → Dict κ α
  | [], _ => []
  | (k₀, v₀) :: d, k => if k = k₀ then d else (k₀, v₀) :: dpop d k

/-- The key list of a dictionary, in iteration order. -/
def dkeys {κ α : Type} (d : Dict κ α) : List κ := d.map Prod.fst

/-- A span (i, j), the half open token interval from i to j. -/
abbrev Span := ℕ × ℕ

/-- A backpointer (symbol, span start, span end) as stored by the parser. -/
abbrev Backpointer := Symbol × ℕ × ℕ

/-- A chart cell entry: either a literal token (leaf case, the source stores
the token string itself) or a pair of backpointers (internal node). -/
inductive Entry where
  | leaf (tok : String)
  | node (l r : Backpointer)
deriving DecidableEq

/-- The backpointer table: span to (nonterminal to entry). -/
abbrev Chart := Dict Span (Dict Symbol Entry)

/-- The probability table of cky.py stores base two logarithms of
probabilities.  The model stores the exponential 2 ^ x of each stored value x
instead: math.log(p, 2) becomes p itself, the sum of two logarithms becomes a
product, and the sentinel -math.inf becomes 0.  Since x maps to 2 ^ x
strictly monotonically and sends addition to multiplication, every comparison
performed by the algorithm is preserved exactly, and a stored logarithm is
nonpositive (respectively finite) precisely when the modelled value is at
most 1 (respectively positive). -/
abbrev Probs := Dict Span (Dict Symbol ℚ)

/-- table[s][a] for a two level dictionary: outer lookup, then inner. -/
def cget {α : Type} (t : Dict Span (Dict Symbol α)) (s : Span) (a : Symbol) : Option α :=
  dget ((dget t s).getD []) a

/-- table[s][a] = v for a two level dictionary.  In the source the outer key
always exists at every such write; the model materialises the cell when it is
absent. -/
def cset {α : Type} (t : Dict Span (Dict Symbol α)) (s : Span) (a : Symbol) (v : α) :
    Dict Span (Dict Symbol α) :=
  dset t s (dset ((dget t s).getD []) a v)

/-- cky.py line 131: one binary rule application of the membership chart
builder, table[(i, j)][rule[0]] = ((rule[1][0], i, k), (rule[1][1], k, j)).
The rules handed to this step always have a two symbol right hand side, so
the positional indexing of the source cannot fail; getD supplies the two
components. -/
def memRule (i j k : ℕ) (t : Chart) (rule : Rule) : Chart :=
  cset t (i, j) rule.lhs
    (.node (rule.rhs.getD 0 "", i, k) (rule.rhs.getD 1 "", k, j))

/-- cky.py lines 113-131: one split point k of the membership chart builder.
The key lists are read once per split point from the current table; an empty
key list simply yields an empty iteration, like the continue statements of
the source. -/
def memSplit (g : Pcfg) (i j : ℕ) (t : Chart) (k : ℕ) : Chart :=
  let l_keys := dkeys ((dget t (i, k)).getD [])
  let r_keys := dkeys ((dget t (k, j)).getD [])
  l_keys.foldl (fun t l_key =>
    r_keys.foldl (fun t r_key =>
      (g.rhs_to_rules [l_key, r_key]).foldl (memRule i j k) t) t) t

/-- cky.py lines 110-134: one cell (i, j) of the membership chart builder,
including the dummy sentinel entry that is inserted first and popped after
all split points have been processed. -/
def memCell (g : Pcfg) (i j : ℕ) (t : Chart) : Chart :=
  let t := dset t (i, j) [("", Entry.leaf "")]
  let t := (List.range' (i + 1) (j - i - 1)).foldl (memSplit g i j) t
  dset t (i, j) (dpop ((dget t (i, j)).getD []) "")

/-- cky.py lines 93-105: table initialisation and leaf filling of
is_in_language. -/
def memInit (g : Pcfg) (tokens : List String) : Chart :=
  let n := tokens.length
  let t : Chart := (List.range n).foldl (fun t i => dset t (i, i + 1) []) []
  (List.range n).foldl (fun t i =>
    (g.rhs_to_rules [tokens.getD i ""]).foldl (fun t rule =>
      cset t (i, i + 1) rule.lhs (.leaf (tokens.getD i ""))) t) t

/-- The membership chart built internally by is_in_language
(cky.py lines 93-134: initialisation, leaf filling and main loop). -/
def memTables (g : Pcfg) (tokens : List String) : Chart :=
  let n := tokens.length
  (List.range' 2 (n - 1)).foldl (fun t length =>
    (List.range (n - length + 1)).foldl (fun t i => memCell g i (i + length) t) t)
    (memInit g tokens)

/-- cky.py lines 87-136.  The final statement of the source reads
len(table[(0, n)]) > 0; when the key (0, n) is absent — which happens exactly
for the empty token sequence, since then no cell is ever created — the lookup
raises KeyError, which the model renders as none. -/
def is_in_language (g : Pcfg) (tokens : List String) : Option Bool :=
  (dget (memTables g tokens) (0, tokens.length)).map (fun cell => decide (0 < cell.length))

/-- cky.py lines 155-157: create the empty cell for a leaf span in both
tables. -/
def spanInit (st : Chart × Probs) (i : ℕ) : Chart × Probs :=
  (dset st.1 (i, i + 1) [], dset st.2 (i, i + 1) [])

/-- cky.py lines 163-166: one unary rule at a leaf: the token is stored as
the chart marker and the rule probability (a base two logarithm in the
source, its exponential here) in the probability table.  A later rule with
the same left hand side silently overwrites an earlier one; no maximisation
is performed. -/
def leafStep (tok : String) (i : ℕ) (st : Chart × Probs) (rule : Rule) : Chart × Probs :=
  (cset st.1 (i, i + 1) rule.lhs (.leaf tok), cset st.2 (i, i + 1) rule.lhs rule.prob)

/-- cky.py lines 154-166: initialisation and leaf filling of
parse_with_backpointers. -/
def wtInit (g : Pcfg) (tokens : List String) : Chart × Probs :=
  let n := tokens.length
  let st := (List.range n).foldl spanInit (([], []) : Chart × Probs)
  (List.range n).foldl (fun st i =>
    (g.rhs_to_rules [tokens.getD i ""]).foldl (leafStep (tokens.getD i "") i) st) st

/-- The candidate value of one binary derivation, cky.py line 201:
probs[(i, k)][l_key] + probs[(k, j)][r_key] + math.log(rule[2], 2), which in
exponential form is a product.  The getD 0 renders the direct dictionary
lookups of the source, which never fail there because both keys are always
present when this line runs. -/
def candVal (p : Probs) (i k j : ℕ) (l_key r_key : Symbol) (rule : Rule) : ℚ :=
  ((cget p (i, k) l_key).getD 0) * ((cget p (k, j) r_key).getD 0) * rule.prob

/-- cky.py lines 194-204: processing of a single rule candidate at split
point k.  On first encounter of the left hand side in this cell its stored
value is initialised to -inf (0 in exponential form); the candidate then
overwrites the stored backpointer and value exactly when it is strictly
greater. -/
def wtRule (i j k : ℕ) (l_key r_key : Symbol) (st : Chart × Probs)
    (rule : Rule) : Chart × Probs :=
  let p := if (cget st.2 (i, j) rule.lhs).isNone then cset st.2 (i, j) rule.lhs 0 else st.2
  let new_key : Entry := .node (rule.rhs.getD 0 "", i, k) (rule.rhs.getD 1 "", k, j)
  let new_value := candVal p i k j l_key r_key rule
  if (cget p (i, j) rule.lhs).getD 0 < new_value then
    (cset st.1 (i, j) rule.lhs new_key, cset p (i, j) rule.lhs new_value)
  else
    (st.1, p)

/-- cky.py lines 175-204: one split point k of the weighted chart builder. -/
def wtSplit (g : Pcfg) (i j : ℕ) (st : Chart × Probs) (k : ℕ) : Chart × Probs :=
  let l_keys := dkeys ((dget st.1 (i, k)).getD [])
  let r_keys := dkeys ((dget st.1 (k, j)).getD [])
  l_keys.foldl (fun st l_key =>
    r_keys.foldl (fun st r_key =>
      (g.rhs_to_rules [l_key, r_key]).foldl (wtRule i j k l_key r_key) st) st) st

/-- cky.py lines 173-174: the dummy sentinel entries inserted before the
split point loop (the empty string maps to an empty token marker and to
-inf, that is 0 in exponential form). -/
def wtCellStart (i j : ℕ) (st : Chart × Probs) : Chart × Probs :=
  (dset st.1 (i, j) [("", Entry.leaf "")], dset st.2 (i, j) [("", (0 : ℚ))])

/-- cky.py lines 207-208: the dummy sentinel entries are popped from both
tables once the cell is complete. -/
def wtCellFinish (i j : ℕ) (st : Chart × Probs) : Chart × Probs :=
  (dset st.1 (i, j) (dpop ((dget st.1 (i, j)).getD []) ""),
   dset st.2 (i, j) (dpop ((dget st.2 (i, j)).getD []) ""))

/-- cky.py lines 169-208: one cell (i, j) of the weighted chart builder. -/
def wtCell (g : Pcfg) (i j : ℕ) (st : Chart × Probs) : Chart × Probs :=
  wtCellFinish i j
    ((List.range' (i + 1) (j - i - 1)).foldl (wtSplit g i j) (wtCellStart i j st))

/-- cky.py lines 138-209: the weighted CKY chart builder, returning the
backpointer table and the probability table. -/
def parse_with_backpointers (g : Pcfg) (tokens : List String) : Chart × Probs :=
  let n := tokens.length
  (List.range' 2 (n - 1)).foldl (fun st length =>
    (List.range (n - length + 1)).foldl (fun st i => wtCell g i (i + length) st) st)
    (wtInit g tokens)

/-- cky.py lines 7-44.  Every test performed by the source checker is a
dynamic shape test (isinstance and length tests) that the typed model
satisfies by construction; note also that the span key test of the source,
written not isinstance(split, tuple) and len(split) == 2 and ..., binds as
(not isinstance(split, tuple)) and ..., so it can never fire on an actual
dictionary key.  The model therefore walks the same structure and accepts
every entry. -/
def check_table_format (t : Chart) : Bool :=
  t.all (fun sc => sc.2.all (fun ae =>
    match ae.2 with
    | .leaf _ => true
    | .node _ _ => true))

/-- cky.py lines 46-72.  The only test with semantic content is prob > 0 (a
stored log probability may not be positive, lines 69-71); in exponential form
a logarithm is nonpositive exactly when the stored value is at most 1.  The
remaining tests are dynamic shape tests that hold by construction in the
typed model. -/
def check_probs_format (p : Probs) : Bool :=
  p.all (fun sc => sc.2.all (fun av => decide (av.2 ≤ 1)))

/-- A parse tree as returned by get_tree: the source returns the pair
(nt, token) at a leaf and the triple (nt, left subtree, right subtree) at an
internal node. -/
inductive Tree where
  | leaf (sym tok : String)
  | node (sym : String) (l r : Tree)
deriving DecidableEq

/-- cky.py lines 212-227, with explicit recursion fuel standing for the call
stack (the recursion of the source terminates exactly on charts whose
backpointers lead downwards, which the produced charts satisfy).  A missing
chart entry — a KeyError in the source — is rendered as none. -/
def get_tree (fuel : ℕ) (chart : Chart) (i j : ℕ) (nt : Symbol) : Option Tree :=
  match fuel with
  | 0 => none
  | fuel + 1 =>
    match cget chart (i, j) nt with
    | none => none
    | some (.leaf tok) => some (.leaf nt tok)
    | some (.node l r) =>
      match get_tree fuel chart l.2.1 l.2.2 l.1, get_tree fuel chart r.2.1 r.2.2 r.1 with
      | some lt, some rt => some (.node nt lt rt)
      | _, _ => none

/-- Validity of a reconstructed tree over a span: a leaf covers a width one
span and is labelled with the token at that position; the two children of an
internal node cover contiguous subspans meeting at a split point and
together exactly cover the span of the parent, in left to right order. -/
inductive validTree (tks : List String) : ℕ → ℕ → Tree → Prop where
  | leaf (sym : Symbol) (i : ℕ) : validTree tks i (i + 1) (.leaf sym (tks.getD i ""))
  | node (sym : Symbol) {i k j : ℕ} {lt rt : Tree} :
      i < k → k < j → validTree tks i k lt → validTree tks k j rt →
      validTree tks i j (.node sym lt rt)

/-- The nonterminal key list of the cell of a table at a span, as an optional
value (none when the span itself is absent). -/
def cellKeys {α : Type} (t : Dict Span (Dict Symbol α)) (s : Span) : Option (List Symbol) :=
  (dget t s).map dkeys

/-- Value part of the lockstep invariant: every value stored in the
probability table is positive (a finite logarithm), except that the cell of
the span currently being processed may carry the dummy sentinel, the empty
string mapped to 0 (-inf). -/
def InvV (ex : Option Span) (p : Probs) : Prop :=
  ∀ s cell, dget p s = some cell → ∀ a v, dget cell a = some v →
    0 < v ∨ (a = "" ∧ v = 0 ∧ ex = some s)

/-- Every cell of the probability table has duplicate free keys. -/
def InvN (p : Probs) : Prop :=
  ∀ s cell, dget p s = some cell → (dkeys cell).Nodup

/-- The lockstep invariant relating the membership chart builder to the
weighted chart builder: all three tables agree on the nonterminal key list of
every span, and the probability values are as in InvV. -/
def Inv (ex : Option Span) (tm : Chart) (st : Chart × Probs) : Prop :=
  (∀ s, cellKeys tm s = cellKeys st.1 s) ∧
  (∀ s, cellKeys st.1 s = cellKeys st.2 s) ∧ InvV ex st.2 ∧ InvN st.2

/-- The chart has an entry for the given span and symbol. -/
def hasEntry (t : Chart) (s : Span) (a : Symbol) : Prop :=
  ∃ cell e, dget t s = some cell ∧ dget cell a = some e

/-- Well formedness of one backpointer claimed to cover the subspan from lo
to hi: its recorded span components match, its symbol has an entry in the
chart at that subspan, and its symbol can be the empty string only at a
width one (leaf) subspan. -/
def bpOK (t : Chart) (lo hi : ℕ) (bp : Backpointer) : Prop :=
  bp.2.1 = lo ∧ bp.2.2 = hi ∧ (bp.1 ≠ "" ∨ hi = lo + 1) ∧ hasEntry t (lo, hi) bp.1

/-- Well formedness of a chart entry at a span: a leaf marker sits at a width
one span and stores the token at that position; a node marker stores two
backpointers that split the span at an interior point. -/
def entryOK (tks : List String) (t : Chart) (s : Span) : Entry → Prop
  | .leaf tok => s.2 = s.1 + 1 ∧ tok = tks.getD s.1 ""
  | .node l r => ∃ k, s.1 < k ∧ k < s.2 ∧ bpOK t s.1 k l ∧ bpOK t k s.2 r

/-- Well formedness of the weighted chart during construction: every entry is
well formed (except the dummy sentinel of the span currently being
processed), no finalised wide cell contains the empty string key, and every
cell has duplicate free keys. -/
def WFex (ex : Option Span) (tks : List String) (t : Chart) : Prop :=
  (∀ s cell, dget t s = some cell → ∀ a e, dget cell a = some e →
      (ex = some s ∧ a = "") ∨ entryOK tks t s e) ∧
  (∀ s cell, dget t s = some cell → ex ≠ some s → s.1 + 1 < s.2 → dget cell "" = none) ∧
  (∀ s cell, dget t s = some cell → (dkeys cell).Nodup)

/-- Both tables of a builder state keep duplicate free key lists in every
cell. -/
abbrev ndState (st : Chart × Probs) : Prop :=
  (∀ s cell, dget st.1 s = some cell → (dkeys cell).Nodup) ∧
  (∀ s cell, dget st.2 s = some cell → (dkeys cell).Nodup)

/-- Every value stored anywhere in a probability table lies between 0 and 1;
in logarithmic terms, every stored log probability is finite or -inf and
nonpositive. -/
def probsBounded (p : Probs) : Prop :=
  ∀ sc ∈ p, ∀ av ∈ sc.2, 0 ≤ av.2 ∧ av.2 ≤ 1

/-- Every span that owns a cell of the chart satisfies P (used to track
which spans have been created at each point of the construction). -/
def chartDom (P : Span → Prop) (t : Chart) : Prop :=
  ∀ s : Span, (dget t s).isSome = true → P s

/-- Toy grammar whose start symbol S has no rules while X derives the string
a b: used to exhibit the difference between membership of any nonterminal and
membership of the start symbol. -/
def gX : Pcfg := ⟨[⟨"X", ["A", "B"], 1⟩, ⟨"A", ["a"], 1⟩, ⟨"B", ["b"], 1⟩], "S"⟩

/-- The two token toy grammar of the specification scenario: S derives a b
with probability 1. -/
def gS : Pcfg := ⟨[⟨"S", ["A", "B"], 1⟩, ⟨"A", ["a"], 1⟩, ⟨"B", ["b"], 1⟩], "S"⟩

/-- Toy grammar in which the probabilities of the left hand side S sum to
0.97. -/
def g97 : Pcfg := ⟨[⟨"S", ["A", "B"], 97 / 100⟩], "S"⟩

/-- Toy grammar in which the probabilities of the left hand side S sum to a
value different from 1 but within 1e-9 of it. -/
def gTol : Pcfg := ⟨[⟨"S", ["A", "B"], 1 + 1 / 2000000000⟩], "S"⟩

/-- Toy grammar with two unary rules sharing the same left hand side for the
same token, the later one carrying the smaller probability. -/
def gDup : Pcfg := ⟨[⟨"A", ["a"], 3 / 4⟩, ⟨"A", ["a"], 1 / 4⟩], "S"⟩

/-! Basic lemmas about the dictionary model. -/

theorem dget_dset_self {κ α : Type} [DecidableEq κ] (d : Dict κ α) (k : κ) (v : α) :
    dget (dset d k v) k = some v := by
  induction d with
  | nil => simp [dget, dset]
  | cons hd tl ih =>
    obtain ⟨k₀, v₀⟩ := hd
    by_cases h : k = k₀ <;> simp [dget, dset, h, ih]

theorem dget_dset_ne {κ α : Type} [DecidableEq κ] (d : Dict κ α) (k k' : κ) (v : α)
    (h : k' ≠ k) : dget (dset d k v) k' = dget d k' := by
  induction d with
  | nil => simp [dget, dset, h]
  | cons hd tl ih =>
    obtain ⟨k₀, v₀⟩ := hd
    by_cases hk : k = k₀
    · subst hk; simp [dget, dset, h]
    · by_cases hk' : k' = k₀ <;> simp [dget, dset, hk, hk', ih]

theorem dkeys_cons {κ α : Type} (k : κ) (v : α) (d : Dict κ α) :
    dkeys ((k, v) :: d) = k :: dkeys d := rfl

theorem dget_eq_none_iff {κ α : Type} [DecidableEq κ] (d : Dict κ α) (k : κ) :
    dget d k = none ↔ k ∉ dkeys d := by
  induction d with
  | nil => simp [dget, dkeys]
  | cons hd tl ih =>
    obtain ⟨k₀, v₀⟩ := hd
    rw [dkeys_cons]
    by_cases h : k = k₀
    · subst h; simp [dget]
    · simp [dget, h, ih]

theorem dget_isSome_iff {κ α : Type} [DecidableEq κ] (d : Dict κ α) (k : κ) :
    (dget d k).isSome = true ↔ k ∈ dkeys d := by
  rw [Option.isSome_iff_ne_none, ne_eq, dget_eq_none_iff, not_not]

theorem dget_mem {κ α : Type} [DecidableEq κ] {d : Dict κ α} {k : κ} {v : α}
    (h : dget d k = some v) : (k, v) ∈ d := by
  induction d with
  | nil => simp [dget] at h
  | cons hd tl ih =>
    obtain ⟨k₀, v₀⟩ := hd
    by_cases hk : k = k₀
    · subst hk; simp [dget] at h; simp [h]
    · simp [dget, hk] at h; exact List.mem_cons_of_mem _ (ih h)

theorem mem_dset {κ α : Type} [DecidableEq κ] {d : Dict κ α} {k : κ} {v : α} {x : κ × α}
    (h : x ∈ dset d k v) : x ∈ d ∨ x = (k, v) := by
  induction d with
  | nil => simp [dset] at h; simp [h]
  | cons hd tl ih =>
    obtain ⟨k₀, v₀⟩ := hd
    by_cases hk : k = k₀
    · subst hk
      simp [dset] at h
      rcases h with h | h
      · right; simp [h]
      · left; exact List.mem_cons_of_mem _ h
    · simp [dset, hk] at h
      rcases h with h | h
      · left; simp [h]
      · rcases ih h with h' | h'
        · left; exact List.mem_cons_of_mem _ h'
        · right; exact h'

theorem dkeys_dset {κ α : Type} [DecidableEq κ] (d : Dict κ α) (k : κ) (v : α) :
    dkeys (dset d k v) = if k ∈ dkeys d then dkeys d else dkeys d ++ [k] := by
  induction d with
  | nil => simp [dset, dkeys]
  | cons hd tl ih =>
    obtain ⟨k₀, v₀⟩ := hd
    by_cases h : k = k₀
    · subst h
      rw [show dset ((k, v₀) :: tl) k v = (k, v) :: tl from by simp [dset]]
      rw [dkeys_cons, dkeys_cons, if_pos (List.mem_cons_self _ _)]
    · rw [show dset ((k₀, v₀) :: tl) k v = (k₀, v₀) :: dset tl k v from by simp [dset, h]]
      rw [dkeys_cons, dkeys_cons, ih]
      have hne : (k ∈ k₀ :: dkeys tl) ↔ k ∈ dkeys tl := by simp [List.mem_cons, h]
      by_cases hm : k ∈ dkeys tl
      · rw [if_pos hm, if_pos (hne.mpr hm)]
      · rw [if_neg hm, if_neg (fun hh => hm (hne.mp hh))]
        rfl

theorem dget_dpop_ne {κ α : Type} [DecidableEq κ] (d : Dict κ α) (k k' : κ) (h : k' ≠ k) :
    dget (dpop d k) k' = dget d k' := by
  induction d with
  | nil => simp [dpop]
  | cons hd tl ih =>
    obtain ⟨k₀, v₀⟩ := hd
    by_cases hk : k = k₀
    · subst hk; simp [dpop, dget, h]
    · by_cases hk' : k' = k₀ <;> simp [dpop, dget, hk, hk', ih]

theorem dget_dpop_self {κ α : Type} [DecidableEq κ] (d : Dict κ α) (k : κ)
    (h : (dkeys d).Nodup) : dget (dpop d k) k = none := by
  induction d with
  | nil => simp [dpop, dget]
  | cons hd tl ih =>
    obtain ⟨k₀, v₀⟩ := hd
    rw [dkeys_cons, List.nodup_cons] at h
    by_cases hk : k = k₀
    · subst hk
      simp only [dpop, if_pos rfl]
      exact (dget_eq_none_iff tl k).mpr h.1
    · simp [dpop, dget, hk, ih h.2]

theorem dpop_sublist {κ α : Type} [DecidableEq κ] (d : Dict κ α) (k : κ) :
    (dpop d k).Sublist d := by
  induction d with
  | nil => simp [dpop]
  | cons hd tl ih =>
    obtain ⟨k₀, v₀⟩ := hd
    by_cases hk : k = k₀
    · simp [dpop, hk]
    · simpa [dpop, hk] using ih.cons₂ (k₀, v₀)

theorem mem_dpop {κ α : Type} [DecidableEq κ] {d : Dict κ α} {k : κ} {x : κ × α}
    (h : x ∈ dpop d k) : x ∈ d := (dpop_sublist d k).subset h

theorem dkeys_dpop_sublist {κ α : Type} [DecidableEq κ] (d : Dict κ α) (k : κ) :
    (dkeys (dpop d k)).Sublist (dkeys d) := (dpop_sublist d k).map Prod.fst

theorem dkeys_dpop_congr {κ α β : Type} [DecidableEq κ] (d₁ : Dict κ α) (d₂ : Dict κ β)
    (k : κ) (h : dkeys d₁ = dkeys d₂) : dkeys (dpop d₁ k) = dkeys (dpop d₂ k) := by
  induction d₁ generalizing d₂ with
  | nil =>
    cases d₂ with
    | nil => rfl
    | cons hd tl => exact absurd h (by obtain ⟨k₂, v₂⟩ := hd; simp [dkeys, dkeys_cons])
  | cons hd tl ih =>
    cases d₂ with
    | nil => exact absurd h (by obtain ⟨k₀, v₀⟩ := hd; simp [dkeys, dkeys_cons])
    | cons hd₂ tl₂ =>
      obtain ⟨k₀, v₀⟩ := hd
      obtain ⟨k₂, v₂⟩ := hd₂
      rw [dkeys_cons, dkeys_cons] at h
      injection h with hk htl
      subst hk
      by_cases hk0 : k = k₀
      · simp only [dpop, if_pos hk0]
        exact htl
      · simp only [dpop, if_neg hk0, dkeys_cons]
        rw [ih tl₂ htl]

theorem nodup_dkeys_dset {κ α : Type} [DecidableEq κ] (d : Dict κ α) (k : κ) (v : α)
    (h : (dkeys d).Nodup) : (dkeys (dset d k v)).Nodup := by
  rw [dkeys_dset]
  by_cases hm : k ∈ dkeys d
  · simpa [hm] using h
  · simp only [hm, if_false]
    refine List.Nodup.append h (List.nodup_singleton k) ?_
    intro a ha hb
    simp at hb
    subst hb
    exact hm ha

theorem nodup_dkeys_dpop {κ α : Type} [DecidableEq κ] (d : Dict κ α) (k : κ)
    (h : (dkeys d).Nodup) : (dkeys (dpop d k)).Nodup :=
  h.sublist (dkeys_dpop_sublist d k)

/-! Lemmas about the two level dictionary operations. -/

theorem cget_cset_self {α : Type} (t : Dict Span (Dict Symbol α)) (s : Span) (a : Symbol)
    (v : α) : cget (cset t s a v) s a = some v := by
  simp [cget, cset, dget_dset_self]

theorem dget_cset_ne {α : Type} (t : Dict Span (Dict Symbol α)) (s s' : Span) (a : Symbol)
    (v : α) (h : s' ≠ s) : dget (cset t s a v) s' = dget t s' := by
  simp [cset, dget_dset_ne _ _ _ _ h]

theorem cget_cset_ne {α : Type} (t : Dict Span (Dict Symbol α)) (s s' : Span) (a a' : Symbol)
    (v : α) (h : s' ≠ s ∨ a' ≠ a) : cget (cset t s a v) s' a' = cget t s' a' := by
  rcases h with h | h
  · simp [cget, cset, dget_dset_ne _ _ _ _ h]
  · by_cases hs : s' = s
    · subst hs; simp [cget, cset, dget_dset_self, dget_dset_ne _ _ _ _ h]
    · simp [cget, cset, dget_dset_ne _ _ _ _ hs]

/-! Generic fold helpers. -/

theorem foldl_preserve {α β : Type} {P : α → Prop} {f : α → β → α} {l : List β}
    (h : ∀ st x, x ∈ l → P st → P (f st x)) (st : α) (hst : P st) :
    P (l.foldl f st) := by
  induction l generalizing st with
  | nil => exact hst
  | cons x xs ih =>
    exact ih (fun st y hy => h st y (List.mem_cons_of_mem _ hy)) _
      (h st x (List.mem_cons_self _ _) hst)

theorem foldl_rel {α β γ : Type} {R : α → β → Prop} {f : α → γ → α} {g : β → γ → β}
    {l : List γ} (h : ∀ a b x, x ∈ l → R a b → R (f a x) (g b x)) {a : α} {b : β}
    (hab : R a b) : R (l.foldl f a) (l.foldl g b) := by
  induction l generalizing a b with
  | nil => exact hab
  | cons x xs ih =>
    exact ih (fun a b y hy => h a b y (List.mem_cons_of_mem _ hy))
      (h a b x (List.mem_cons_self _ _) hab)

/-! Helper facts about math.isclose. -/

theorem isclose_of_near (a : ℚ) (h : |a - 1| ≤ 1 / 1000000000) : isclose a 1 = true := by
  rw [isclose, decide_eq_true_eq]
  have h1 : (1 : ℚ) ≤ max |a| |1| := by
    rw [abs_one]
    exact le_max_right _ _
  have h2 : relTol * 1 ≤ relTol * max |a| |1| := by
    refine mul_le_mul_of_nonneg_left h1 ?_
    rw [relTol]
    norm_num
  refine le_trans ?_ (le_max_left _ _)
  rw [relTol] at h2 ⊢
  calc |a - 1| ≤ 1 / 1000000000 := h
    _ = 1 / 1000000000 * 1 := by ring
    _ ≤ _ := h2

theorem isclose_097 : isclose (97 / 100) 1 = false := by
  rw [isclose, decide_eq_false_iff_not]
  have h1 : |(97 : ℚ) / 100 - 1| = 3 / 100 := by
    rw [abs_of_neg (by norm_num)]
    norm_num
  have h2 : |(97 : ℚ) / 100| = 97 / 100 := abs_of_nonneg (by norm_num)
  rw [h1, h2, abs_one, relTol]
  norm_num

/-- C2: for every grammar, is_in_language applied to the empty token sequence
does not return a boolean at all: with n = 0 no span cell is ever created,
so the final lookup table[(0, 0)] raises KeyError (none in the model).  The
specification instead promises that membership is false for the empty
sequence, so the code contradicts both the specification and its own
docstring here. -/
theorem c2_empty_input_keyerror (g : Pcfg) : is_in_language g [] = none := rfl

/-- C9: both right hand side lookups return the empty sequence, and never
fail, on any right hand side that no rule matches (the index is a total
function into lists in the model, mirroring defaultdict(list), so no error
is possible by construction). -/
theorem c9_missing_rhs_empty (g : Pcfg) (a b t : Symbol)
    (hbin : ∀ r ∈ g.rules, r.rhs ≠ [a, b]) (hun : ∀ r ∈ g.rules, r.rhs ≠ [t]) :
    g.rhs_to_rules [a, b] = [] ∧ g.rhs_to_rules [t] = [] := by
  constructor <;>
    · rw [Pcfg.rhs_to_rules, List.filter_eq_nil_iff]
      intro r hr
      first
        | simpa using hbin r hr
        | simpa using hun r hr

theorem c9_missing_rhs_empty_witness :
    gS.rhs_to_rules ["B", "A"] = [] ∧ gS.rhs_to_rules ["c"] = [] :=
  c9_missing_rhs_empty gS "B" "A" "c" (by decide) (by decide)

/-- C5: verify_grammar rejects any grammar in which the probabilities of some
left hand side sum to 0.97, and accepts any grammar in which every left hand
side sums to within 1e-9 of 1, because it compares each per lhs sum to 1.0
with the tolerance of math.isclose rather than exact equality. -/
theorem c5_verify_grammar_tolerance :
    (∀ (g : Pcfg) (A : Symbol), A ∈ g.lhsKeys →
        ((g.lhs_to_rules A).map Rule.prob).sum = 97 / 100 → g.verify_grammar = false) ∧
    (∀ g : Pcfg,
        (∀ A ∈ g.lhsKeys, |((g.lhs_to_rules A).map Rule.prob).sum - 1| ≤ 1 / 1000000000) →
        g.verify_grammar = true) := by
  constructor
  · intro g A hA hsum
    cases hvg : g.verify_grammar with
    | false => rfl
    | true =>
      exfalso
      have hall := List.all_eq_true.mp (by simpa [Pcfg.verify_grammar] using hvg) A hA
      rw [hsum, isclose_097] at hall
      exact Bool.false_ne_true hall
  · intro g h
    rw [Pcfg.verify_grammar, List.all_eq_true]
    intro A hA
    exact isclose_of_near _ (h A hA)

theorem c5_verify_grammar_tolerance_witness :
    g97.verify_grammar = false ∧ gTol.verify_grammar = true := by
  constructor
  · refine c5_verify_grammar_tolerance.1 g97 "S" ?_ ?_
    · decide
    · norm_num [g97, Pcfg.lhs_to_rules, List.filter]
  · refine c5_verify_grammar_tolerance.2 gTol ?_
    intro A hA
    rw [show gTol.lhsKeys = ["S"] from by decide] at hA
    have hAS := List.mem_singleton.mp hA
    subst hAS
    norm_num [gTol, Pcfg.lhs_to_rules, List.filter]
    rw [abs_of_nonneg (by norm_num)]
    norm_num

/-- C4: when a candidate derivation for a cell has exactly the value already
stored for that left hand side, the stored backpointer and probability are
kept and the whole state is unchanged: the strict comparison of the source
discards the candidate, so the earlier found derivation wins exact ties. -/
theorem c4_tie_keeps_earlier (i j k : ℕ) (l_key r_key : Symbol) (t : Chart) (p : Probs)
    (rule : Rule) (h : cget p (i, j) rule.lhs = some (candVal p i k j l_key r_key rule)) :
    wtRule i j k l_key r_key (t, p) rule = (t, p) := by
  simp [wtRule, h]

theorem c4_tie_keeps_earlier_witness :
    wtRule 0 2 1 "A" "B"
      (([] : Chart), [((0, 1), [("A", (1 : ℚ))]), ((1, 2), [("B", 1)]), ((0, 2), [("S", 1)])])
      ⟨"S", ["A", "B"], 1⟩
      = (([] : Chart), [((0, 1), [("A", (1 : ℚ))]), ((1, 2), [("B", 1)]), ((0, 2), [("S", 1)])]) :=
  c4_tie_keeps_earlier 0 2 1 "A" "B" _ _ _ (by norm_num [cget, dget, candVal])

/-- C8: in the leaf initialisation, when several unary rules share a left
hand side for the same token, each later rule silently overwrites the chart
marker and the stored probability of the earlier ones: after the leaf fold
the cell holds the values of the last such rule, whatever the earlier ones
were (in particular no maximisation is performed at the leaf level). -/
theorem c8_leaf_overwrite (tok : String) (i : ℕ) (st : Chart × Probs)
    (pre suf : List Rule) (r : Rule) (hsuf : ∀ r2 ∈ suf, r2.lhs ≠ r.lhs) :
    cget ((pre ++ r :: suf).foldl (leafStep tok i) st).1 (i, i + 1) r.lhs
        = some (.leaf tok) ∧
    cget ((pre ++ r :: suf).foldl (leafStep tok i) st).2 (i, i + 1) r.lhs
        = some r.prob := by
  rw [List.foldl_append, List.foldl_cons]
  refine @foldl_preserve _ _
    (fun st' => cget st'.1 (i, i + 1) r.lhs = some (.leaf tok) ∧
      cget st'.2 (i, i + 1) r.lhs = some r.prob)
    (leafStep tok i) suf ?_ _ ⟨?_, ?_⟩
  · intro st' x hx hP
    refine ⟨?_, ?_⟩
    · rw [show (leafStep tok i st' x).1 = cset st'.1 (i, i + 1) x.lhs (.leaf tok) from rfl]
      rw [cget_cset_ne _ _ _ _ _ _ (Or.inr (hsuf x hx).symm)]
      exact hP.1
    · rw [show (leafStep tok i st' x).2 = cset st'.2 (i, i + 1) x.lhs x.prob from rfl]
      rw [cget_cset_ne _ _ _ _ _ _ (Or.inr (hsuf x hx).symm)]
      exact hP.2
  · exact cget_cset_self _ _ _ _
  · exact cget_cset_self _ _ _ _

theorem c8_leaf_overwrite_witness :
    cget ((gDup.rhs_to_rules ["a"]).foldl (leafStep "a" 0) (([], []) : Chart × Probs)).2
        (0, 1) "A" = some (1 / 4) := by
  have h := c8_leaf_overwrite "a" 0 (([], []) : Chart × Probs)
    [⟨"A", ["a"], 3 / 4⟩] [] ⟨"A", ["a"], 1 / 4⟩ (by intro r2 hr2; cases hr2)
  have hlist : gDup.rhs_to_rules ["a"]
      = [⟨"A", ["a"], 3 / 4⟩] ++ (⟨"A", ["a"], 1 / 4⟩ : Rule) :: [] := by
    rw [Pcfg.rhs_to_rules, gDup]
    simp [List.filter]
  rw [hlist]
  exact h.2

theorem dget_dset {κ α : Type} [DecidableEq κ] (d : Dict κ α) (k k' : κ) (v : α) :
    dget (dset d k v) k' = if k' = k then some v else dget d k' := by
  by_cases h : k' = k
  · subst h; rw [if_pos rfl]; exact dget_dset_self d k' v
  · rw [if_neg h]; exact dget_dset_ne d k k' v h

/-! Generic preservation of an invariant along the weighted chart
construction. -/

theorem mem_cell_of_mem_getD {α : Type} {p : Dict Span (Dict Symbol α)} {s : Span}
    {av : Symbol × α} (h : av ∈ (dget p s).getD []) :
    ∃ cell, dget p s = some cell ∧ av ∈ cell := by
  cases hs : dget p s with
  | none => rw [hs] at h; cases h
  | some cell => rw [hs] at h; exact ⟨cell, rfl, h⟩

theorem cget_mem {α : Type} {p : Dict Span (Dict Symbol α)} {s : Span} {a : Symbol} {v : α}
    (h : cget p s a = some v) : ∃ cell, (s, cell) ∈ p ∧ (a, v) ∈ cell := by
  rw [cget] at h
  cases hs : dget p s with
  | none => rw [hs] at h; cases h
  | some cell => rw [hs] at h; exact ⟨cell, dget_mem hs, dget_mem h⟩

theorem wtSplit_preserve {P : Chart × Probs → Prop} (g : Pcfg) (i j k : ℕ)
    (hrule : ∀ (i' j' k' : ℕ) (l_key r_key : Symbol) (st : Chart × Probs) (rule : Rule),
      rule ∈ g.rules → P st → P (wtRule i' j' k' l_key r_key st rule))
    (st : Chart × Probs) (hst : P st) : P (wtSplit g i j st k) := by
  simp only [wtSplit]
  refine @foldl_preserve _ _ P _ _ ?_ _ hst
  intro st1 l_key _ h1
  refine @foldl_preserve _ _ P _ _ ?_ _ h1
  intro st2 r_key _ h2
  refine @foldl_preserve _ _ P _ _ ?_ _ h2
  intro st3 rule hrm h3
  exact hrule i j k l_key r_key st3 rule (List.mem_of_mem_filter hrm) h3

theorem wtCell_preserve {P : Chart × Probs → Prop} (g : Pcfg) (i j : ℕ)
    (hstart : ∀ (i' j' : ℕ) (st : Chart × Probs), P st → P (wtCellStart i' j' st))
    (hfinish : ∀ (i' j' : ℕ) (st : Chart × Probs), P st → P (wtCellFinish i' j' st))
    (hrule : ∀ (i' j' k' : ℕ) (l_key r_key : Symbol) (st : Chart × Probs) (rule : Rule),
      rule ∈ g.rules → P st → P (wtRule i' j' k' l_key r_key st rule))
    (st : Chart × Probs) (hst : P st) : P (wtCell g i j st) := by
  rw [wtCell]
  refine hfinish i j _ (@foldl_preserve _ _ P _ _ ?_ _ (hstart i j st hst))
  intro st1 k _ h1
  exact wtSplit_preserve g i j k hrule st1 h1

theorem parse_preserve {P : Chart × Probs → Prop} (g : Pcfg) (tokens : List String)
    (hspan : ∀ (st : Chart × Probs) (i : ℕ), P st → P (spanInit st i))
    (hleaf : ∀ (tok : String) (i : ℕ) (st : Chart × Probs) (rule : Rule),
      rule ∈ g.rules → P st → P (leafStep tok i st rule))
    (hstart : ∀ (i' j' : ℕ) (st : Chart × Probs), P st → P (wtCellStart i' j' st))
    (hfinish : ∀ (i' j' : ℕ) (st : Chart × Probs), P st → P (wtCellFinish i' j' st))
    (hrule : ∀ (i' j' k' : ℕ) (l_key r_key : Symbol) (st : Chart × Probs) (rule : Rule),
      rule ∈ g.rules → P st → P (wtRule i' j' k' l_key r_key st rule))
    (hbase : P (([], []) : Chart × Probs)) :
    P (parse_with_backpointers g tokens) := by
  rw [parse_with_backpointers]
  have hinit : P (wtInit g tokens) := by
    rw [wtInit]
    refine @foldl_preserve _ _ P _ _ ?_ _ (@foldl_preserve _ _ P _ _ ?_ _ hbase)
    · intro st1 i _ h1
      refine @foldl_preserve _ _ P _ _ ?_ _ h1
      intro st2 rule hrm h2
      exact hleaf _ i st2 rule (List.mem_of_mem_filter hrm) h2
    · intro st1 i _ h1
      exact hspan st1 i h1
  refine @foldl_preserve _ _ P _ _ ?_ _ hinit
  intro st1 length _ h1
  refine @foldl_preserve _ _ P _ _ ?_ _ h1
  intro st2 i _ h2
  exact wtCell_preserve g i (i + length) hstart hfinish hrule st2 h2

/-! The bounds invariant behind the probability table validator. -/

theorem probsBounded_dset {p : Probs} {s : Span} {cell : Dict Symbol ℚ}
    (hp : probsBounded p) (hcell : ∀ av ∈ cell, 0 ≤ av.2 ∧ av.2 ≤ 1) :
    probsBounded (dset p s cell) := by
  intro sc hsc av hav
  rcases mem_dset hsc with h | h
  · exact hp sc h av hav
  · subst h
    exact hcell av hav

theorem probsBounded_cset {p : Probs} {s : Span} {a : Symbol} {v : ℚ}
    (hp : probsBounded p) (h0 : 0 ≤ v) (h1 : v ≤ 1) : probsBounded (cset p s a v) := by
  refine probsBounded_dset hp ?_
  intro av hav
  rcases mem_dset hav with h | h
  · obtain ⟨cell, hcell, hmem⟩ := mem_cell_of_mem_getD h
    exact hp _ (dget_mem hcell) av hmem
  · subst h
    exact ⟨h0, h1⟩

theorem probsBounded_cget {p : Probs} (hp : probsBounded p) (s : Span) (a : Symbol) :
    0 ≤ (cget p s a).getD 0 ∧ (cget p s a).getD 0 ≤ 1 := by
  cases hv : cget p s a with
  | none => norm_num
  | some v =>
    obtain ⟨cell, hcell, hmem⟩ := cget_mem hv
    simpa using hp _ hcell _ hmem

theorem probs_bounded_parse (g : Pcfg) (tokens : List String)
    (hp : ∀ r ∈ g.rules, 0 ≤ r.prob ∧ r.prob ≤ 1) :
    probsBounded (parse_with_backpointers g tokens).2 := by
  refine @parse_preserve (fun st => probsBounded st.2) g tokens ?_ ?_ ?_ ?_ ?_ ?_
  · intro st i h
    exact probsBounded_dset h (by intro av hav; cases hav)
  · intro tok i st rule hr h
    exact probsBounded_cset h (hp rule hr).1 (hp rule hr).2
  · intro i j st h
    refine probsBounded_dset h ?_
    intro av hav
    rcases List.mem_singleton.mp hav with rfl
    norm_num
  · intro i j st h
    refine probsBounded_dset h ?_
    intro av hav
    obtain ⟨cell, hcell, hmem⟩ := mem_cell_of_mem_getD (mem_dpop hav)
    exact h _ (dget_mem hcell) av hmem
  · intro i j k l_key r_key st rule hr h
    simp only [wtRule]
    set p1 := if (cget st.2 (i, j) rule.lhs).isNone then cset st.2 (i, j) rule.lhs 0 else st.2
      with hp1
    have h1 : probsBounded p1 := by
      rw [hp1]
      split
      · exact probsBounded_cset h le_rfl (by norm_num)
      · exact h
    have hx := probsBounded_cget h1 (i, k) l_key
    have hy := probsBounded_cget h1 (k, j) r_key
    have hcand0 : 0 ≤ candVal p1 i k j l_key r_key rule :=
      mul_nonneg (mul_nonneg hx.1 hy.1) (hp rule hr).1
    have hcand1 : candVal p1 i k j l_key r_key rule ≤ 1 := by
      rw [candVal]
      have hxy : (cget p1 (i, k) l_key).getD 0 * (cget p1 (k, j) r_key).getD 0 ≤ 1 :=
        mul_le_one₀ hx.2 hy.1 hy.2
      calc _ ≤ 1 * rule.prob := by
              refine mul_le_mul_of_nonneg_right hxy (hp rule hr).1
        _ ≤ 1 := by rw [one_mul]; exact (hp rule hr).2
    split
    · exact probsBounded_cset h1 hcand0 hcand1
    · exact h1
  · intro sc hsc
    cases hsc

/-- C7: for every grammar whose rule probabilities lie in (0, 1] and every
non empty token sequence, the pair produced by parse_with_backpointers passes
both validators: the backpointer table is well shaped (in the typed model
every structural test of check_table_format holds by construction) and every
stored probability satisfies the check of check_probs_format, that is the
stored log probability is not greater than 0 (value at most 1 in exponential
form). -/
theorem c7_validators_accept (g : Pcfg) (tokens : List String) (_hne : tokens ≠ [])
    (hp : ∀ r ∈ g.rules, 0 < r.prob ∧ r.prob ≤ 1) :
    check_table_format (parse_with_backpointers g tokens).1 = true ∧
    check_probs_format (parse_with_backpointers g tokens).2 = true := by
  constructor
  · rw [check_table_format, List.all_eq_true]
    intro sc _
    rw [List.all_eq_true]
    intro ae _
    cases ae.2 <;> rfl
  · rw [check_probs_format, List.all_eq_true]
    intro sc hsc
    rw [List.all_eq_true]
    intro av hav
    rw [decide_eq_true_eq]
    exact (probs_bounded_parse g tokens
      (fun r hr => ⟨(hp r hr).1.le, (hp r hr).2⟩) sc hsc av hav).2

theorem c7_validators_accept_witness :
    check_table_format (parse_with_backpointers gS ["a", "b"]).1 = true ∧
    check_probs_format (parse_with_backpointers gS ["a", "b"]).2 = true := by
  refine c7_validators_accept gS ["a", "b"] (by decide) ?_
  intro r hr
  rw [gS] at hr
  simp only [List.mem_cons, List.not_mem_nil, or_false] at hr
  rcases hr with h | h | h <;> subst h <;> norm_num

/-- C1 as stated is violated by the code: is_in_language tests whether the
cell of the full span is nonempty, not whether it contains the start symbol.
For the grammar gX (start symbol S, while only X derives the full span) and
the tokens a b, is_in_language returns true although the chart produced by
parse_with_backpointers has no entry for the start symbol S over the full
span (0, 2).  This contradicts the membership semantics promised by the
specification and by the docstring of is_in_language itself. -/
theorem c1_start_symbol_bug :
    is_in_language gX ["a", "b"] = some true ∧ gX.startsymbol = "S" ∧
    cget (parse_with_backpointers gX ["a", "b"]).1 (0, 2) gX.startsymbol = none := by
  refine ⟨by decide, rfl, ?_⟩
  norm_num [parse_with_backpointers, wtCell, wtSplit, wtRule, wtCellStart, wtCellFinish,
    wtInit, spanInit, leafStep, candVal, cget, cset, dget, dset, dpop, dkeys,
    Pcfg.rhs_to_rules, gX, List.range', List.range_succ, List.filter]
  all_goals decide

/-! Frame lemmas: each step of the weighted builder touches only the cell of
the span it works on. -/

theorem wtRule_frame (i j k : ℕ) (l_key r_key : Symbol) (st : Chart × Probs) (rule : Rule)
    {s : Span} (h : s ≠ (i, j)) :
    dget (wtRule i j k l_key r_key st rule).1 s = dget st.1 s ∧
    dget (wtRule i j k l_key r_key st rule).2 s = dget st.2 s := by
  simp only [wtRule]
  split <;> split
  · exact ⟨dget_cset_ne _ _ _ _ _ h,
      (dget_cset_ne _ _ _ _ _ h).trans (dget_cset_ne _ _ _ _ _ h)⟩
  · exact ⟨rfl, dget_cset_ne _ _ _ _ _ h⟩
  · exact ⟨dget_cset_ne _ _ _ _ _ h, dget_cset_ne _ _ _ _ _ h⟩
  · exact ⟨rfl, rfl⟩

theorem wtSplit_frame (g : Pcfg) (i j : ℕ) (st : Chart × Probs) (k : ℕ)
    {s : Span} (h : s ≠ (i, j)) :
    dget (wtSplit g i j st k).1 s = dget st.1 s ∧
    dget (wtSplit g i j st k).2 s = dget st.2 s := by
  simp only [wtSplit]
  refine @foldl_preserve _ _
    (fun st' : Chart × Probs => dget st'.1 s = dget st.1 s ∧ dget st'.2 s = dget st.2 s)
    _ _ ?_ _ ⟨rfl, rfl⟩
  intro st1 l_key _ h1
  refine @foldl_preserve _ _
    (fun st' : Chart × Probs => dget st'.1 s = dget st.1 s ∧ dget st'.2 s = dget st.2 s)
    _ _ ?_ _ h1
  intro st2 r_key _ h2
  refine @foldl_preserve _ _
    (fun st' : Chart × Probs => dget st'.1 s = dget st.1 s ∧ dget st'.2 s = dget st.2 s)
    _ _ ?_ _ h2
  intro st3 rule _ h3
  have hf := wtRule_frame i j k l_key r_key st3 rule h
  exact ⟨hf.1.trans h3.1, hf.2.trans h3.2⟩

theorem wtCellStart_frame (i j : ℕ) (st : Chart × Probs) {s : Span} (h : s ≠ (i, j)) :
    dget (wtCellStart i j st).1 s = dget st.1 s ∧
    dget (wtCellStart i j st).2 s = dget st.2 s :=
  ⟨dget_dset_ne _ _ _ _ h, dget_dset_ne _ _ _ _ h⟩

theorem wtCellFinish_frame (i j : ℕ) (st : Chart × Probs) {s : Span} (h : s ≠ (i, j)) :
    dget (wtCellFinish i j st).1 s = dget st.1 s ∧
    dget (wtCellFinish i j st).2 s = dget st.2 s :=
  ⟨dget_dset_ne _ _ _ _ h, dget_dset_ne _ _ _ _ h⟩

theorem wtCell_frame (g : Pcfg) (i j : ℕ) (st : Chart × Probs) {s : Span} (h : s ≠ (i, j)) :
    dget (wtCell g i j st).1 s = dget st.1 s ∧
    dget (wtCell g i j st).2 s = dget st.2 s := by
  rw [wtCell]
  have hstep : ∀ (st1 : Chart × Probs) (k : ℕ), k ∈ List.range' (i + 1) (j - i - 1) →
      (dget st1.1 s = dget st.1 s ∧ dget st1.2 s = dget st.2 s) →
      dget (wtSplit g i j st1 k).1 s = dget st.1 s ∧
      dget (wtSplit g i j st1 k).2 s = dget st.2 s := by
    intro st1 k _ h1
    have hs := wtSplit_frame g i j st1 k h
    exact ⟨hs.1.trans h1.1, hs.2.trans h1.2⟩
  have hmid := @foldl_preserve _ _
    (fun st' : Chart × Probs => dget st'.1 s = dget st.1 s ∧ dget st'.2 s = dget st.2 s)
    (wtSplit g i j) (List.range' (i + 1) (j - i - 1)) hstep _ (wtCellStart_frame i j st h)
  have hf := wtCellFinish_frame i j
    ((List.range' (i + 1) (j - i - 1)).foldl (wtSplit g i j) (wtCellStart i j st)) h
  exact ⟨hf.1.trans hmid.1, hf.2.trans hmid.2⟩

/-! Duplicate freedom of all cell key lists, preserved through the whole
construction. -/

theorem cellsNodup_dset {α : Type} {t : Dict Span (Dict Symbol α)}
    (h : ∀ s cell, dget t s = some cell → (dkeys cell).Nodup)
    {cellN : Dict Symbol α} (hcell : (dkeys cellN).Nodup) (s : Span) :
    ∀ s' cell, dget (dset t s cellN) s' = some cell → (dkeys cell).Nodup := by
  intro s' cell hc
  rw [dget_dset] at hc
  split at hc
  · cases hc; exact hcell
  · exact h s' cell hc

theorem cellsNodup_getD {α : Type} {t : Dict Span (Dict Symbol α)}
    (h : ∀ s cell, dget t s = some cell → (dkeys cell).Nodup) (s : Span) :
    (dkeys ((dget t s).getD [])).Nodup := by
  cases hs : dget t s with
  | none => exact List.nodup_nil
  | some cell => exact h s cell hs

theorem cellsNodup_cset {α : Type} {t : Dict Span (Dict Symbol α)}
    (h : ∀ s cell, dget t s = some cell → (dkeys cell).Nodup) (s : Span) (a : Symbol)
    (v : α) : ∀ s' cell, dget (cset t s a v) s' = some cell → (dkeys cell).Nodup :=
  cellsNodup_dset h (nodup_dkeys_dset _ _ _ (cellsNodup_getD h s)) s

theorem nodup_dkeys_nil {κ α : Type} : (dkeys ([] : Dict κ α)).Nodup := by
  simp [dkeys]

theorem nodup_dkeys_singleton {κ α : Type} (k : κ) (v : α) :
    (dkeys [(k, v)]).Nodup := by
  simp [dkeys]

theorem ndState_spanInit (st : Chart × Probs) (i : ℕ) (h : ndState st) :
    ndState (spanInit st i) :=
  ⟨cellsNodup_dset h.1 nodup_dkeys_nil _, cellsNodup_dset h.2 nodup_dkeys_nil _⟩

theorem ndState_leafStep (tok : String) (i : ℕ) (st : Chart × Probs) (rule : Rule)
    (h : ndState st) : ndState (leafStep tok i st rule) :=
  ⟨cellsNodup_cset h.1 _ _ _, cellsNodup_cset h.2 _ _ _⟩

theorem ndState_wtCellStart (i j : ℕ) (st : Chart × Probs) (h : ndState st) :
    ndState (wtCellStart i j st) :=
  ⟨cellsNodup_dset h.1 (nodup_dkeys_singleton _ _) _,
   cellsNodup_dset h.2 (nodup_dkeys_singleton _ _) _⟩

theorem ndState_wtCellFinish (i j : ℕ) (st : Chart × Probs) (h : ndState st) :
    ndState (wtCellFinish i j st) :=
  ⟨cellsNodup_dset h.1 (nodup_dkeys_dpop _ _ (cellsNodup_getD h.1 _)) _,
   cellsNodup_dset h.2 (nodup_dkeys_dpop _ _ (cellsNodup_getD h.2 _)) _⟩

theorem ndState_wtRule (i j k : ℕ) (l_key r_key : Symbol) (st : Chart × Probs)
    (rule : Rule) (h : ndState st) : ndState (wtRule i j k l_key r_key st rule) := by
  simp only [wtRule]
  split <;> split
  · exact ⟨cellsNodup_cset h.1 _ _ _, cellsNodup_cset (cellsNodup_cset h.2 _ _ _) _ _ _⟩
  · exact ⟨h.1, cellsNodup_cset h.2 _ _ _⟩
  · exact ⟨cellsNodup_cset h.1 _ _ _, cellsNodup_cset h.2 _ _ _⟩
  · exact h

theorem ndState_base : ndState (([], []) : Chart × Probs) := by
  constructor <;> intro s cell hc <;> cases hc

/-! Decomposition of index ranges at a chosen element. -/

theorem range'_decompose (s m x : ℕ) (h1 : s ≤ x) (h2 : x < s + m) :
    List.range' s m = List.range' s (x - s) ++ x :: List.range' (x + 1) (s + m - x - 1) := by
  have e3 : s + m - x = (s + m - x - 1) + 1 := by omega
  have h4 := List.range'_append_1 s (x - s) (s + m - x)
  rw [show s + (x - s) = x from by omega,
    show s + m - x + (x - s) = m from by omega] at h4
  rw [← h4, e3, List.range'_succ]
  rw [show s + m - x - 1 + 1 - 1 = s + m - x - 1 from by omega]

/-! Monotonicity of stored probability values under candidate processing. -/

theorem wtRule_mono (i j k : ℕ) (l_key r_key : Symbol) (st : Chart × Probs) (rule : Rule)
    (s : Span) (a : Symbol) (v : ℚ) (h : cget st.2 s a = some v) :
    ∃ v', cget (wtRule i j k l_key r_key st rule).2 s a = some v' ∧ v ≤ v' := by
  by_cases hsa : s = (i, j) ∧ a = rule.lhs
  · obtain ⟨hs, ha⟩ := hsa
    subst hs; subst ha
    simp only [wtRule]
    split
    · next hT => rw [h] at hT; simp at hT
    · next =>
      split
      · next hlt =>
        refine ⟨_, cget_cset_self _ _ _ _, ?_⟩
        rw [h] at hlt
        simpa using le_of_lt hlt
      · next => exact ⟨v, h, le_rfl⟩
  · have hne : s ≠ (i, j) ∨ a ≠ rule.lhs := not_and_or.mp hsa
    refine ⟨v, ?_, le_rfl⟩
    simp only [wtRule]
    split <;> split <;> dsimp only
    · rw [cget_cset_ne _ _ _ _ _ _ hne, cget_cset_ne _ _ _ _ _ _ hne]; exact h
    · rw [cget_cset_ne _ _ _ _ _ _ hne]; exact h
    · rw [cget_cset_ne _ _ _ _ _ _ hne]; exact h
    · exact h

theorem pmono_wtRule (i j k : ℕ) (l_key r_key : Symbol) (st : Chart × Probs) (rule : Rule)
    (s : Span) (a : Symbol) (v₀ : ℚ)
    (h : ∃ v', cget st.2 s a = some v' ∧ v₀ ≤ v') :
    ∃ v', cget (wtRule i j k l_key r_key st rule).2 s a = some v' ∧ v₀ ≤ v' := by
  obtain ⟨v', hv', hle⟩ := h
  obtain ⟨v'', hv'', hle'⟩ := wtRule_mono i j k l_key r_key st rule s a v' hv'
  exact ⟨v'', hv'', hle.trans hle'⟩

theorem pmono_wtSplit (g : Pcfg) (i j : ℕ) (st : Chart × Probs) (k : ℕ) (s : Span)
    (a : Symbol) (v₀ : ℚ) (h : ∃ v', cget st.2 s a = some v' ∧ v₀ ≤ v') :
    ∃ v', cget (wtSplit g i j st k).2 s a = some v' ∧ v₀ ≤ v' :=
  wtSplit_preserve g i j k
    (fun i' j' k' l r st' rule _ hP => pmono_wtRule i' j' k' l r st' rule s a v₀ hP) st h

/-- After processing one rule candidate, the stored value for the left hand
side of that rule is at least the value of the candidate (it is overwritten
exactly when the candidate is strictly greater). -/
theorem wtRule_ge_cand (i j k : ℕ) (l_key r_key : Symbol) (st : Chart × Probs) (rule : Rule)
    (hik : (i, k) ≠ ((i, j) : Span)) (hkj : (k, j) ≠ ((i, j) : Span)) :
    ∃ v₀, cget (wtRule i j k l_key r_key st rule).2 (i, j) rule.lhs = some v₀ ∧
      candVal st.2 i k j l_key r_key rule ≤ v₀ := by
  have hcand : ∀ p1 : Probs, (∀ s', s' ≠ ((i, j) : Span) → dget p1 s' = dget st.2 s') →
      candVal p1 i k j l_key r_key rule = candVal st.2 i k j l_key r_key rule := by
    intro p1 hp
    rw [candVal, candVal, cget, cget, cget, cget, hp _ hik, hp _ hkj]
  simp only [wtRule]
  split
  · next hnone =>
    have he := hcand (cset st.2 (i, j) rule.lhs 0)
      (fun s' hs' => dget_cset_ne _ _ _ _ _ hs')
    split
    · next hlt =>
      exact ⟨_, cget_cset_self _ _ _ _, le_of_eq he.symm⟩
    · next hlt =>
      refine ⟨0, cget_cset_self _ _ _ _, ?_⟩
      rw [← he]
      have hge := not_lt.mp hlt
      rwa [cget_cset_self] at hge
  · next hnone =>
    cases hcv : cget st.2 (i, j) rule.lhs with
    | none => rw [hcv] at hnone; simp at hnone
    | some w =>
      split
      · next hlt => exact ⟨_, cget_cset_self _ _ _ _, le_rfl⟩
      · next hlt =>
        refine ⟨w, hcv, ?_⟩
        simpa using not_lt.mp hlt

/-- Passing through a fold at a chosen element: a frame property Q holds up
to the element, the element establishes M, and M is preserved by every
step. -/
theorem foldl_through {α β : Type} {f : α → β → α} {l : List β} {x : β} (hx : x ∈ l)
    {Q M : α → Prop}
    (hQ : ∀ st y, y ∈ l → Q st → Q (f st y))
    (hM : ∀ st y, y ∈ l → M st → M (f st y))
    (hest : ∀ st, Q st → M (f st x))
    (st : α) (hst : Q st) : M (l.foldl f st) := by
  obtain ⟨pre, suf, rfl⟩ := List.append_of_mem hx
  rw [List.foldl_append, List.foldl_cons]
  have hQpre : Q (pre.foldl f st) :=
    foldl_preserve (fun st' y hy => hQ st' y (List.mem_append_left _ hy)) st hst
  refine foldl_preserve (fun st' y hy => hM st' y ?_) _ (hest _ hQpre)
  exact List.mem_append_right _ (List.mem_cons_of_mem _ hy)

theorem candVal_congr {p1 p2 : Probs} (i k j : ℕ) (l_key r_key : Symbol) (rule : Rule)
    (h1 : dget p1 (i, k) = dget p2 (i, k)) (h2 : dget p1 (k, j) = dget p2 (k, j)) :
    candVal p1 i k j l_key r_key rule = candVal p2 i k j l_key r_key rule := by
  rw [candVal, candVal, cget, cget, cget, cget, h1, h2]

/-- Processing split point k of cell (i, j): if the left and right symbols
are present in the sub cells and a rule matches them, the resulting stored
value for the left hand side of the rule is at least the candidate value. -/
theorem wtSplit_ge_cand (g : Pcfg) (i j k : ℕ) (stB : Chart × Probs)
    (l_key r_key : Symbol) (rule : Rule)
    (hik : ((i, k) : Span) ≠ (i, j)) (hkj : ((k, j) : Span) ≠ (i, j))
    (hl : l_key ∈ dkeys ((dget stB.1 (i, k)).getD []))
    (hr : r_key ∈ dkeys ((dget stB.1 (k, j)).getD []))
    (hrule : rule ∈ g.rhs_to_rules [l_key, r_key]) :
    ∃ v', cget (wtSplit g i j stB k).2 (i, j) rule.lhs = some v' ∧
      candVal stB.2 i k j l_key r_key rule ≤ v' := by
  simp only [wtSplit]
  refine @foldl_through _ _ _ _ l_key hl
    (fun st' : Chart × Probs => dget st'.2 (i, k) = dget stB.2 (i, k) ∧
      dget st'.2 (k, j) = dget stB.2 (k, j))
    (fun st' : Chart × Probs => ∃ v', cget st'.2 (i, j) rule.lhs = some v' ∧
      candVal stB.2 i k j l_key r_key rule ≤ v')
    ?_ ?_ ?_ stB ⟨rfl, rfl⟩
  · intro st' y _ hQ
    refine @foldl_preserve _ _
      (fun st'' : Chart × Probs => dget st''.2 (i, k) = dget stB.2 (i, k) ∧
        dget st''.2 (k, j) = dget stB.2 (k, j)) _ _ ?_ _ hQ
    intro st1 r _ h1
    refine @foldl_preserve _ _
      (fun st'' : Chart × Probs => dget st''.2 (i, k) = dget stB.2 (i, k) ∧
        dget st''.2 (k, j) = dget stB.2 (k, j)) _ _ ?_ _ h1
    intro st2 rl _ h2
    exact ⟨(wtRule_frame i j k y r st2 rl hik).2.trans h2.1,
      (wtRule_frame i j k y r st2 rl hkj).2.trans h2.2⟩
  · intro st' y _ hM
    refine @foldl_preserve _ _
      (fun st'' : Chart × Probs => ∃ v', cget st''.2 (i, j) rule.lhs = some v' ∧
        candVal stB.2 i k j l_key r_key rule ≤ v') _ _ ?_ _ hM
    intro st1 r _ h1
    refine @foldl_preserve _ _
      (fun st'' : Chart × Probs => ∃ v', cget st''.2 (i, j) rule.lhs = some v' ∧
        candVal stB.2 i k j l_key r_key rule ≤ v') _ _ ?_ _ h1
    intro st2 rl _ h2
    exact pmono_wtRule i j k y r st2 rl _ _ _ h2
  · intro st' hQ
    refine @foldl_through _ _ _ _ r_key hr
      (fun st'' : Chart × Probs => dget st''.2 (i, k) = dget stB.2 (i, k) ∧
        dget st''.2 (k, j) = dget stB.2 (k, j))
      (fun st'' : Chart × Probs => ∃ v', cget st''.2 (i, j) rule.lhs = some v' ∧
        candVal stB.2 i k j l_key r_key rule ≤ v')
      ?_ ?_ ?_ st' hQ
    · intro st1 r _ h1
      refine @foldl_preserve _ _
        (fun st'' : Chart × Probs => dget st''.2 (i, k) = dget stB.2 (i, k) ∧
          dget st''.2 (k, j) = dget stB.2 (k, j)) _ _ ?_ _ h1
      intro st2 rl _ h2
      exact ⟨(wtRule_frame i j k l_key r st2 rl hik).2.trans h2.1,
        (wtRule_frame i j k l_key r st2 rl hkj).2.trans h2.2⟩
    · intro st1 r _ h1
      refine @foldl_preserve _ _
        (fun st'' : Chart × Probs => ∃ v', cget st''.2 (i, j) rule.lhs = some v' ∧
          candVal stB.2 i k j l_key r_key rule ≤ v') _ _ ?_ _ h1
      intro st2 rl _ h2
      exact pmono_wtRule i j k l_key r st2 rl _ _ _ h2
    · intro st1 hQ1
      refine @foldl_through _ _ _ _ rule hrule
        (fun st'' : Chart × Probs => dget st''.2 (i, k) = dget stB.2 (i, k) ∧
          dget st''.2 (k, j) = dget stB.2 (k, j))
        (fun st'' : Chart × Probs => ∃ v', cget st''.2 (i, j) rule.lhs = some v' ∧
          candVal stB.2 i k j l_key r_key rule ≤ v')
        ?_ ?_ ?_ st1 hQ1
      · intro st2 rl _ h2
        exact ⟨(wtRule_frame i j k l_key r_key st2 rl hik).2.trans h2.1,
          (wtRule_frame i j k l_key r_key st2 rl hkj).2.trans h2.2⟩
      · intro st2 rl _ h2
        exact pmono_wtRule i j k l_key r_key st2 rl _ _ _ h2
      · intro st2 hQ2
        obtain ⟨v₀, hv₀, hge⟩ := wtRule_ge_cand i j k l_key r_key st2 rule hik hkj
        refine ⟨v₀, hv₀, ?_⟩
        rwa [candVal_congr i k j l_key r_key rule hQ2.1 hQ2.2] at hge

/-- Processing a whole cell (i, j): the final stored value for the left hand
side of any rule matching a pair of symbols present in two adjacent sub cells
is at least the value of that candidate, and the dummy sentinel key is gone
afterwards. -/
theorem wtCell_ge_cand (g : Pcfg) (i j k : ℕ) (stPre : Chart × Probs)
    (hik : i < k) (hkj : k < j)
    (l_key r_key : Symbol) (rule : Rule)
    (hl : l_key ∈ dkeys ((dget stPre.1 (i, k)).getD []))
    (hr : r_key ∈ dkeys ((dget stPre.1 (k, j)).getD []))
    (hrule : rule ∈ g.rhs_to_rules [l_key, r_key])
    (hnd : ndState stPre) :
    (∀ v, cget (wtCell g i j stPre).2 (i, j) rule.lhs = some v →
      candVal stPre.2 i k j l_key r_key rule ≤ v) ∧
    cget (wtCell g i j stPre).2 (i, j) "" = none := by
  have hikne : ((i, k) : Span) ≠ (i, j) := by simp [Prod.ext_iff]; omega
  have hkjne : ((k, j) : Span) ≠ (i, j) := by simp [Prod.ext_iff]; omega
  rw [wtCell]
  set stAll := (List.range' (i + 1) (j - i - 1)).foldl (wtSplit g i j) (wtCellStart i j stPre)
    with hstAll
  have hmem : k ∈ List.range' (i + 1) (j - i - 1) := by
    rw [List.mem_range'_1]
    omega
  have hQ0 : dget (wtCellStart i j stPre).1 (i, k) = dget stPre.1 (i, k) ∧
      dget (wtCellStart i j stPre).1 (k, j) = dget stPre.1 (k, j) ∧
      dget (wtCellStart i j stPre).2 (i, k) = dget stPre.2 (i, k) ∧
      dget (wtCellStart i j stPre).2 (k, j) = dget stPre.2 (k, j) :=
    ⟨(wtCellStart_frame i j stPre hikne).1, (wtCellStart_frame i j stPre hkjne).1,
     (wtCellStart_frame i j stPre hikne).2, (wtCellStart_frame i j stPre hkjne).2⟩
  have hMall : ∃ v', cget stAll.2 (i, j) rule.lhs = some v' ∧
      candVal stPre.2 i k j l_key r_key rule ≤ v' := by
    rw [hstAll]
    refine @foldl_through _ _ _ _ k hmem
      (fun st' : Chart × Probs => dget st'.1 (i, k) = dget stPre.1 (i, k) ∧
        dget st'.1 (k, j) = dget stPre.1 (k, j) ∧
        dget st'.2 (i, k) = dget stPre.2 (i, k) ∧
        dget st'.2 (k, j) = dget stPre.2 (k, j))
      (fun st' : Chart × Probs => ∃ v', cget st'.2 (i, j) rule.lhs = some v' ∧
        candVal stPre.2 i k j l_key r_key rule ≤ v')
      ?_ ?_ ?_ _ hQ0
    · intro st' y _ hQ
      exact ⟨(wtSplit_frame g i j st' y hikne).1.trans hQ.1,
        (wtSplit_frame g i j st' y hkjne).1.trans hQ.2.1,
        (wtSplit_frame g i j st' y hikne).2.trans hQ.2.2.1,
        (wtSplit_frame g i j st' y hkjne).2.trans hQ.2.2.2⟩
    · intro st' y _ hM
      exact pmono_wtSplit g i j st' y _ _ _ hM
    · intro st' hQ
      have hl' : l_key ∈ dkeys ((dget st'.1 (i, k)).getD []) := by rw [hQ.1]; exact hl
      have hr' : r_key ∈ dkeys ((dget st'.1 (k, j)).getD []) := by rw [hQ.2.1]; exact hr
      obtain ⟨v', hv', hge⟩ :=
        wtSplit_ge_cand g i j k st' l_key r_key rule hikne hkjne hl' hr' hrule
      refine ⟨v', hv', ?_⟩
      rwa [candVal_congr i k j l_key r_key rule hQ.2.2.1 hQ.2.2.2] at hge
  have hndAll : ndState stAll := by
    rw [hstAll]
    refine @foldl_preserve _ _ ndState _ _ ?_ _ (ndState_wtCellStart i j stPre hnd)
    intro st' y _ h'
    exact wtSplit_preserve g i j y
      (fun i' j' k' l r st'' rule' _ h'' => ndState_wtRule i' j' k' l r st'' rule' h'') st' h'
  have hpop : (wtCellFinish i j stAll).2
      = dset stAll.2 (i, j) (dpop ((dget stAll.2 (i, j)).getD []) "") := rfl
  have hc2 : cget (wtCellFinish i j stAll).2 (i, j) "" = none := by
    rw [cget, hpop, dget_dset_self, Option.getD_some]
    exact dget_dpop_self _ _ (cellsNodup_getD hndAll.2 (i, j))
  refine ⟨?_, hc2⟩
  intro v hv
  by_cases hlhs : rule.lhs = ""
  · rw [hlhs] at hv
    exact Option.noConfusion (hc2.symm.trans hv)
  · have hfin : cget (wtCellFinish i j stAll).2 (i, j) rule.lhs
        = dget ((dget stAll.2 (i, j)).getD []) rule.lhs := by
      rw [cget, hpop, dget_dset_self, Option.getD_some]
      exact dget_dpop_ne _ _ _ hlhs
    obtain ⟨v', hv', hle⟩ := hMall
    rw [hfin] at hv
    rw [show cget stAll.2 (i, j) rule.lhs
        = dget ((dget stAll.2 (i, j)).getD []) rule.lhs from rfl] at hv'
    have hvv := Option.some.inj (hv'.symm.trans hv)
    exact hvv ▸ hle

theorem ndState_wtCell (g : Pcfg) (i j : ℕ) (st : Chart × Probs) (h : ndState st) :
    ndState (wtCell g i j st) :=
  wtCell_preserve g i j (fun i' j' st' h' => ndState_wtCellStart i' j' st' h')
    (fun i' j' st' h' => ndState_wtCellFinish i' j' st' h')
    (fun i' j' k' l r st' rule _ h' => ndState_wtRule i' j' k' l r st' rule h') st h

theorem ndState_wtInit (g : Pcfg) (tokens : List String) : ndState (wtInit g tokens) := by
  rw [wtInit]
  refine @foldl_preserve _ _ ndState _ _ ?_ _
    (@foldl_preserve _ _ ndState _ _ ?_ _ ndState_base)
  · intro st i _ h
    refine @foldl_preserve _ _ ndState _ _ ?_ _ h
    intro st' rule _ h'
    exact ndState_leafStep _ _ _ _ h'
  · intro st i _ h
    exact ndState_spanInit st i h

/-- Decomposition of the top level double fold of parse_with_backpointers at
the processing of cell (i, j): there is a prior state stPre such that the
final tables agree with stPre on the two sub cells (i, k) and (k, j), and
with wtCell g i j stPre on the cell (i, j) itself. -/
theorem parse_decompose (g : Pcfg) (tokens : List String) (i k j : ℕ)
    (hik : i < k) (hkj : k < j) (hj : j ≤ tokens.length) :
    ∃ stPre : Chart × Probs, ndState stPre ∧
      dget (parse_with_backpointers g tokens).1 (i, k) = dget stPre.1 (i, k) ∧
      dget (parse_with_backpointers g tokens).1 (k, j) = dget stPre.1 (k, j) ∧
      dget (parse_with_backpointers g tokens).2 (i, k) = dget stPre.2 (i, k) ∧
      dget (parse_with_backpointers g tokens).2 (k, j) = dget stPre.2 (k, j) ∧
      dget (parse_with_backpointers g tokens).1 (i, j) = dget (wtCell g i j stPre).1 (i, j) ∧
      dget (parse_with_backpointers g tokens).2 (i, j) = dget (wtCell g i j stPre).2 (i, j) := by
  have hikne : ((i, k) : Span) ≠ (i, j) := by simp [Prod.ext_iff]; omega
  have hkjne : ((k, j) : Span) ≠ (i, j) := by simp [Prod.ext_iff]; omega
  simp only [parse_with_backpointers]
  rw [range'_decompose 2 (tokens.length - 1) (j - i) (by omega) (by omega)]
  rw [List.foldl_append, List.foldl_cons]
  try dsimp only
  rw [List.range_eq_range']
  rw [range'_decompose 0 (tokens.length - (j - i) + 1) i (by omega) (by omega)]
  rw [List.foldl_append, List.foldl_cons]
  try dsimp only
  rw [show i + (j - i) = j from by omega]
  rw [show i - 0 = i from by omega]
  set stPre := (List.range' 0 i).foldl (fun st i' => wtCell g i' (i' + (j - i)) st)
    ((List.range' 2 (j - i - 2)).foldl
      (fun st length =>
        (List.range (tokens.length - length + 1)).foldl
          (fun st i' => wtCell g i' (i' + length) st) st)
      (wtInit g tokens)) with hstPre
  have hnd : ndState stPre := by
    rw [hstPre]
    refine @foldl_preserve _ _ ndState _ _ ?_ _ (@foldl_preserve _ _ ndState _ _ ?_ _
      (ndState_wtInit g tokens))
    · intro st i' _ h
      exact ndState_wtCell g i' (i' + (j - i)) st h
    · intro st length _ h
      refine @foldl_preserve _ _ ndState _ _ ?_ _ h
      intro st' i' _ h'
      exact ndState_wtCell g i' (i' + length) st' h'
  refine ⟨stPre, hnd, ?_⟩
  set stMid := wtCell g i j stPre with hstMid
  have hcellfr : ∀ s : Span, s ≠ (i, j) → dget stMid.1 s = dget stPre.1 s ∧
      dget stMid.2 s = dget stPre.2 s := by
    intro s hs
    rw [hstMid]
    exact wtCell_frame g i j stPre hs
  have hsuf1 : ∀ (st' : Chart × Probs) (i' : ℕ),
      i' ∈ List.range' (i + 1) (0 + (tokens.length - (j - i) + 1) - i - 1) →
      (dget st'.1 (i, k) = dget stMid.1 (i, k) ∧ dget st'.2 (i, k) = dget stMid.2 (i, k) ∧
       dget st'.1 (k, j) = dget stMid.1 (k, j) ∧ dget st'.2 (k, j) = dget stMid.2 (k, j) ∧
       dget st'.1 (i, j) = dget stMid.1 (i, j) ∧ dget st'.2 (i, j) = dget stMid.2 (i, j)) →
      (dget (wtCell g i' (i' + (j - i)) st').1 (i, k) = dget stMid.1 (i, k) ∧
       dget (wtCell g i' (i' + (j - i)) st').2 (i, k) = dget stMid.2 (i, k) ∧
       dget (wtCell g i' (i' + (j - i)) st').1 (k, j) = dget stMid.1 (k, j) ∧
       dget (wtCell g i' (i' + (j - i)) st').2 (k, j) = dget stMid.2 (k, j) ∧
       dget (wtCell g i' (i' + (j - i)) st').1 (i, j) = dget stMid.1 (i, j) ∧
       dget (wtCell g i' (i' + (j - i)) st').2 (i, j) = dget stMid.2 (i, j)) := by
    intro st' i' hi' h'
    rw [List.mem_range'_1] at hi'
    have h1 : ((i, k) : Span) ≠ (i', i' + (j - i)) := by simp [Prod.ext_iff]; omega
    have h2 : ((k, j) : Span) ≠ (i', i' + (j - i)) := by simp [Prod.ext_iff]; omega
    have h3 : ((i, j) : Span) ≠ (i', i' + (j - i)) := by simp [Prod.ext_iff]; omega
    have f1 := wtCell_frame g i' (i' + (j - i)) st' h1
    have f2 := wtCell_frame g i' (i' + (j - i)) st' h2
    have f3 := wtCell_frame g i' (i' + (j - i)) st' h3
    exact ⟨f1.1.trans h'.1, f1.2.trans h'.2.1, f2.1.trans h'.2.2.1, f2.2.trans h'.2.2.2.1,
      f3.1.trans h'.2.2.2.2.1, f3.2.trans h'.2.2.2.2.2⟩
  have hmid1 := @foldl_preserve _ _
    (fun st' : Chart × Probs =>
      dget st'.1 (i, k) = dget stMid.1 (i, k) ∧ dget st'.2 (i, k) = dget stMid.2 (i, k) ∧
      dget st'.1 (k, j) = dget stMid.1 (k, j) ∧ dget st'.2 (k, j) = dget stMid.2 (k, j) ∧
      dget st'.1 (i, j) = dget stMid.1 (i, j) ∧ dget st'.2 (i, j) = dget stMid.2 (i, j))
    (fun st i' => wtCell g i' (i' + (j - i)) st)
    (List.range' (i + 1) (0 + (tokens.length - (j - i) + 1) - i - 1))
    hsuf1 stMid ⟨rfl, rfl, rfl, rfl, rfl, rfl⟩
  have hsuf2 : ∀ (st' : Chart × Probs) (length : ℕ),
      length ∈ List.range' (j - i + 1) (2 + (tokens.length - 1) - (j - i) - 1) →
      (dget st'.1 (i, k) = dget stMid.1 (i, k) ∧ dget st'.2 (i, k) = dget stMid.2 (i, k) ∧
       dget st'.1 (k, j) = dget stMid.1 (k, j) ∧ dget st'.2 (k, j) = dget stMid.2 (k, j) ∧
       dget st'.1 (i, j) = dget stMid.1 (i, j) ∧ dget st'.2 (i, j) = dget stMid.2 (i, j)) →
      (dget ((List.range (tokens.length - length + 1)).foldl
          (fun st i' => wtCell g i' (i' + length) st) st').1 (i, k) = dget stMid.1 (i, k) ∧
       dget ((List.range (tokens.length - length + 1)).foldl
          (fun st i' => wtCell g i' (i' + length) st) st').2 (i, k) = dget stMid.2 (i, k) ∧
       dget ((List.range (tokens.length - length + 1)).foldl
          (fun st i' => wtCell g i' (i' + length) st) st').1 (k, j) = dget stMid.1 (k, j) ∧
       dget ((List.range (tokens.length - length + 1)).foldl
          (fun st i' => wtCell g i' (i' + length) st) st').2 (k, j) = dget stMid.2 (k, j) ∧
       dget ((List.range (tokens.length - length + 1)).foldl
          (fun st i' => wtCell g i' (i' + length) st) st').1 (i, j) = dget stMid.1 (i, j) ∧
       dget ((List.range (tokens.length - length + 1)).foldl
          (fun st i' => wtCell g i' (i' + length) st) st').2 (i, j) = dget stMid.2 (i, j)) := by
    intro st' length hlen h'
    rw [List.mem_range'_1] at hlen
    refine @foldl_preserve _ _
      (fun st'' : Chart × Probs =>
        dget st''.1 (i, k) = dget stMid.1 (i, k) ∧ dget st''.2 (i, k) = dget stMid.2 (i, k) ∧
        dget st''.1 (k, j) = dget stMid.1 (k, j) ∧ dget st''.2 (k, j) = dget stMid.2 (k, j) ∧
        dget st''.1 (i, j) = dget stMid.1 (i, j) ∧ dget st''.2 (i, j) = dget stMid.2 (i, j))
      _ _ ?_ _ h'
    intro st'' i' _ h''
    have h1 : ((i, k) : Span) ≠ (i', i' + length) := by simp [Prod.ext_iff]; omega
    have h2 : ((k, j) : Span) ≠ (i', i' + length) := by simp [Prod.ext_iff]; omega
    have h3 : ((i, j) : Span) ≠ (i', i' + length) := by simp [Prod.ext_iff]; omega
    have f1 := wtCell_frame g i' (i' + length) st'' h1
    have f2 := wtCell_frame g i' (i' + length) st'' h2
    have f3 := wtCell_frame g i' (i' + length) st'' h3
    exact ⟨f1.1.trans h''.1, f1.2.trans h''.2.1, f2.1.trans h''.2.2.1, f2.2.trans h''.2.2.2.1,
      f3.1.trans h''.2.2.2.2.1, f3.2.trans h''.2.2.2.2.2⟩
  have hfin := @foldl_preserve _ _
    (fun st' : Chart × Probs =>
      dget st'.1 (i, k) = dget stMid.1 (i, k) ∧ dget st'.2 (i, k) = dget stMid.2 (i, k) ∧
      dget st'.1 (k, j) = dget stMid.1 (k, j) ∧ dget st'.2 (k, j) = dget stMid.2 (k, j) ∧
      dget st'.1 (i, j) = dget stMid.1 (i, j) ∧ dget st'.2 (i, j) = dget stMid.2 (i, j))
    (fun st length =>
      (List.range (tokens.length - length + 1)).foldl
        (fun st i' => wtCell g i' (i' + length) st) st)
    (List.range' (j - i + 1) (2 + (tokens.length - 1) - (j - i) - 1))
    hsuf2 _ hmid1
  exact ⟨hfin.1.trans ((hcellfr _ hikne).1), hfin.2.2.1.trans ((hcellfr _ hkjne).1),
    hfin.2.1.trans ((hcellfr _ hikne).2), hfin.2.2.2.1.trans ((hcellfr _ hkjne).2),
    hfin.2.2.2.2.1, hfin.2.2.2.2.2⟩

theorem parse_ge_cand (g : Pcfg) (tokens : List String) (i k j : ℕ)
    (hik : i < k) (hkj : k < j) (hj : j ≤ tokens.length)
    (l_key r_key : Symbol) (rule : Rule)
    (hl : l_key ∈ dkeys ((dget (parse_with_backpointers g tokens).1 (i, k)).getD []))
    (hr : r_key ∈ dkeys ((dget (parse_with_backpointers g tokens).1 (k, j)).getD []))
    (hrule : rule ∈ g.rhs_to_rules [l_key, r_key])
    (v : ℚ) (hv : cget (parse_with_backpointers g tokens).2 (i, j) rule.lhs = some v) :
    candVal (parse_with_backpointers g tokens).2 i k j l_key r_key rule ≤ v := by
  obtain ⟨stPre, hnd, e1, e2, e3, e4, e5, e6⟩ := parse_decompose g tokens i k j hik hkj hj
  rw [e1] at hl
  rw [e2] at hr
  rw [candVal_congr i k j l_key r_key rule e3 e4]
  have hv' : cget (wtCell g i j stPre).2 (i, j) rule.lhs = some v := by
    rw [cget] at hv ⊢
    rw [← e6]
    exact hv
  exact (wtCell_ge_cand g i j k stPre hik hkj l_key r_key rule hl hr hrule hnd).1 v hv'

/-- C3: the stored value of every cell is monotonically non decreasing along
the sequence of candidate derivations considered for it (first conjunct:
one candidate processing step never decreases any stored value), and after
construction completes the stored value of a cell is at least the value of
every candidate derivation that was considered for that cell (second
conjunct: a candidate of cell (i, j) is a split point k, a pair of symbols
present in the final sub cells, and a matching rule; its value is computed
from the final probability table, which agrees with the table at processing
time because sub cells are finalised before (i, j) is processed). -/
theorem c3_cell_monotonicity :
    (∀ (i j k : ℕ) (l_key r_key : Symbol) (st : Chart × Probs) (rule : Rule)
        (s : Span) (a : Symbol) (v : ℚ), cget st.2 s a = some v →
        ∃ v', cget (wtRule i j k l_key r_key st rule).2 s a = some v' ∧ v ≤ v') ∧
    (∀ (g : Pcfg) (tokens : List String) (i k j : ℕ), i < k → k < j →
        j ≤ tokens.length → ∀ (l_key r_key : Symbol) (rule : Rule),
        l_key ∈ dkeys ((dget (parse_with_backpointers g tokens).1 (i, k)).getD []) →
        r_key ∈ dkeys ((dget (parse_with_backpointers g tokens).1 (k, j)).getD []) →
        rule ∈ g.rhs_to_rules [l_key, r_key] →
        ∀ v : ℚ, cget (parse_with_backpointers g tokens).2 (i, j) rule.lhs = some v →
        candVal (parse_with_backpointers g tokens).2 i k j l_key r_key rule ≤ v) :=
  ⟨fun i j k l r st rule s a v h => wtRule_mono i j k l r st rule s a v h,
   fun g tokens i k j hik hkj hj l r rule hl hr hrule v hv =>
     parse_ge_cand g tokens i k j hik hkj hj l r rule hl hr hrule v hv⟩

theorem c3_cell_monotonicity_witness :
    (∃ v', cget (wtRule 0 2 1 "A" "B" (([] : Chart), [((0, 1), [("A", (1 : ℚ))])])
        ⟨"S", ["A", "B"], 1⟩).2 (0, 1) "A" = some v' ∧ (1 : ℚ) ≤ v') ∧
    candVal (parse_with_backpointers gS ["a", "b"]).2 0 1 2 "A" "B"
      ⟨"S", ["A", "B"], 1⟩ ≤ 1 := by
  constructor
  · exact c3_cell_monotonicity.1 0 2 1 "A" "B"
      (([] : Chart), [((0, 1), [("A", (1 : ℚ))])]) ⟨"S", ["A", "B"], 1⟩ (0, 1) "A" 1
      (by norm_num [cget, dget])
  · exact c3_cell_monotonicity.2 gS ["a", "b"] 0 1 2 (by norm_num) (by norm_num)
      (by norm_num) "A" "B" ⟨"S", ["A", "B"], 1⟩
      (by norm_num [parse_with_backpointers, wtCell, wtSplit, wtRule, wtCellStart,
        wtCellFinish, wtInit, spanInit, leafStep, candVal, cget, cset, dget, dset, dpop,
        dkeys, Pcfg.rhs_to_rules, gS, List.range', List.range_succ, List.filter])
      (by norm_num [parse_with_backpointers, wtCell, wtSplit, wtRule, wtCellStart,
        wtCellFinish, wtInit, spanInit, leafStep, candVal, cget, cset, dget, dset, dpop,
        dkeys, Pcfg.rhs_to_rules, gS, List.range', List.range_succ, List.filter])
      (by simp [Pcfg.rhs_to_rules, gS, List.filter])
      1
      (by norm_num [parse_with_backpointers, wtCell, wtSplit, wtRule, wtCellStart,
        wtCellFinish, wtInit, spanInit, leafStep, candVal, cget, cset, dget, dset, dpop,
        dkeys, Pcfg.rhs_to_rules, gS, List.range', List.range_succ, List.filter])

/-! Well formedness of the weighted chart: monotonicity helpers. -/

theorem hasEntry_cset (t : Chart) (s₀ : Span) (a₀ : Symbol) (v : Entry) {s : Span}
    {a : Symbol} (h : hasEntry t s a) : hasEntry (cset t s₀ a₀ v) s a := by
  obtain ⟨cell, e, hc, he⟩ := h
  by_cases hs : s = s₀
  · subst hs
    refine ⟨dset ((dget t s).getD []) a₀ v, ?_⟩
    rw [cset, dget_dset_self]
    by_cases ha : a = a₀
    · subst ha
      exact ⟨v, rfl, dget_dset_self _ _ _⟩
    · refine ⟨e, rfl, ?_⟩
      rw [dget_dset_ne _ _ _ _ ha, hc, Option.getD_some]
      exact he
  · exact ⟨cell, e, by rw [dget_cset_ne _ _ _ _ _ hs]; exact hc, he⟩

theorem hasEntry_dset_fresh (t : Chart) (s₀ : Span) (c : Dict Symbol Entry)
    (hfresh : dget t s₀ = none) {s : Span} {a : Symbol} (h : hasEntry t s a) :
    hasEntry (dset t s₀ c) s a := by
  obtain ⟨cell, e, hc, he⟩ := h
  by_cases hs : s = s₀
  · subst hs; rw [hfresh] at hc; cases hc
  · exact ⟨cell, e, by rw [dget_dset_ne _ _ _ _ hs]; exact hc, he⟩

theorem bpOK_mono {t t' : Chart} (hext : ∀ s a, hasEntry t s a → hasEntry t' s a)
    {lo hi : ℕ} {bp : Backpointer} (h : bpOK t lo hi bp) : bpOK t' lo hi bp :=
  ⟨h.1, h.2.1, h.2.2.1, hext _ _ h.2.2.2⟩

theorem entryOK_mono {tks : List String} {t t' : Chart}
    (hext : ∀ s a, hasEntry t s a → hasEntry t' s a) {s : Span} {e : Entry}
    (h : entryOK tks t s e) : entryOK tks t' s e := by
  cases e with
  | leaf tok => exact h
  | node l r =>
    obtain ⟨k, h1, h2, h3, h4⟩ := h
    exact ⟨k, h1, h2, bpOK_mono hext h3, bpOK_mono hext h4⟩

/-- Popping the sentinel key from a wide cell preserves every well formed
entry: backpointers never carry the empty symbol towards a wide cell. -/
theorem hasEntry_pop (t : Chart) (i j : ℕ) (hw : i + 2 ≤ j) {lo hi : ℕ} {A : Symbol}
    (hA : A ≠ "" ∨ hi = lo + 1) (h : hasEntry t (lo, hi) A) :
    hasEntry (dset t (i, j) (dpop ((dget t (i, j)).getD []) "")) (lo, hi) A := by
  obtain ⟨cell, e, hc, he⟩ := h
  by_cases hs : ((lo, hi) : Span) = (i, j)
  · have hAne : A ≠ "" := by
      rcases hA with hA | hA
      · exact hA
      · exfalso
        rw [Prod.ext_iff] at hs
        omega
    refine ⟨dpop ((dget t (i, j)).getD []) "", e, ?_, ?_⟩
    · rw [hs, dget_dset_self]
    · rw [← hs, hc, Option.getD_some, dget_dpop_ne _ _ _ hAne]
      exact he
  · exact ⟨cell, e, by rw [dget_dset_ne _ _ _ _ hs]; exact hc, he⟩

/-! Well formedness step lemmas. -/

theorem wf_of_empty {tks : List String} {ex : Option Span} {t : Chart}
    (h : ∀ s cell, dget t s = some cell → cell = []) : WFex ex tks t := by
  refine ⟨?_, ?_, ?_⟩
  · intro s cell hc a e he
    rw [h s cell hc] at he
    cases he
  · intro s cell hc _ _
    rw [h s cell hc]
    rfl
  · intro s cell hc
    rw [h s cell hc]
    exact nodup_dkeys_nil

theorem wf_leafStep {tokens : List String} {t : Chart} (h : WFex none tokens t)
    (i : ℕ) (a : Symbol) :
    WFex none tokens (cset t (i, i + 1) a (.leaf (tokens.getD i ""))) := by
  obtain ⟨hA, hB, hC⟩ := h
  have hext : ∀ s b, hasEntry t s b →
      hasEntry (cset t (i, i + 1) a (.leaf (tokens.getD i ""))) s b :=
    fun s b => hasEntry_cset t (i, i + 1) a _
  refine ⟨?_, ?_, ?_⟩
  · intro s cell hc b e he
    rw [cset, dget_dset] at hc
    split at hc
    · next hs =>
      subst hs
      cases hc
      rw [dget_dset] at he
      split at he
      · next hb =>
        subst hb
        cases he
        exact Or.inr ⟨rfl, rfl⟩
      · next hb =>
        cases hc₀ : dget t (i, i + 1) with
        | none => rw [hc₀] at he; cases he
        | some cell₀ =>
          rw [hc₀, Option.getD_some] at he
          rcases hA _ _ hc₀ b e he with h' | h'
          · exact absurd h'.1 (by simp)
          · exact Or.inr (entryOK_mono hext h')
    · next hs =>
      rcases hA _ _ hc b e he with h' | h'
      · exact absurd h'.1 (by simp)
      · exact Or.inr (entryOK_mono hext h')
  · intro s cell hc _ hwide
    rw [cset, dget_dset] at hc
    split at hc
    · next hs =>
      subst hs
      simp at hwide
    · next hs => exact hB _ _ hc (by simp) hwide
  · intro s cell hc
    rw [cset, dget_dset] at hc
    split at hc
    · next hs =>
      cases hc
      exact nodup_dkeys_dset _ _ _ (cellsNodup_getD hC _)
    · next hs => exact hC _ _ hc

theorem wf_insert_node {tks : List String} (i j k : ℕ) (l_key r_key lhs : Symbol)
    (t : Chart) (h : WFex (some (i, j)) tks t) (hik : i < k) (hkj : k < j)
    (hl : hasEntry t (i, k) l_key) (hr : hasEntry t (k, j) r_key)
    (hlne : l_key ≠ "" ∨ k = i + 1) (hrne : r_key ≠ "" ∨ j = k + 1) :
    WFex (some (i, j)) tks (cset t (i, j) lhs (.node (l_key, i, k) (r_key, k, j))) := by
  obtain ⟨hA, hB, hC⟩ := h
  have hext : ∀ s b, hasEntry t s b →
      hasEntry (cset t (i, j) lhs (.node (l_key, i, k) (r_key, k, j))) s b :=
    fun s b => hasEntry_cset t (i, j) lhs _
  refine ⟨?_, ?_, ?_⟩
  · intro s cell hc b e he
    rw [cset, dget_dset] at hc
    split at hc
    · next hs =>
      subst hs
      cases hc
      rw [dget_dset] at he
      split at he
      · next hb =>
        subst hb
        cases he
        refine Or.inr ⟨k, hik, hkj, ⟨rfl, rfl, hlne, hext _ _ hl⟩,
          ⟨rfl, rfl, hrne, hext _ _ hr⟩⟩
      · next hb =>
        cases hc₀ : dget t (i, j) with
        | none => rw [hc₀] at he; cases he
        | some cell₀ =>
          rw [hc₀, Option.getD_some] at he
          rcases hA _ _ hc₀ b e he with h' | h'
          · exact Or.inl h'
          · exact Or.inr (entryOK_mono hext h')
    · next hs =>
      rcases hA _ _ hc b e he with h' | h'
      · exact Or.inl h'
      · exact Or.inr (entryOK_mono hext h')
  · intro s cell hc hex hwide
    rw [cset, dget_dset] at hc
    split at hc
    · next hs => exact absurd (by rw [hs]) hex
    · next hs => exact hB _ _ hc hex hwide
  · intro s cell hc
    rw [cset, dget_dset] at hc
    split at hc
    · next hs =>
      cases hc
      exact nodup_dkeys_dset _ _ _ (cellsNodup_getD hC _)
    · next hs => exact hC _ _ hc

theorem wf_wtRule {tks : List String} (i j k : ℕ) (l_key r_key : Symbol)
    (st : Chart × Probs) (rule : Rule) (h : WFex (some (i, j)) tks st.1)
    (hik : i < k) (hkj : k < j) (hrhs : rule.rhs = [l_key, r_key])
    (hl : hasEntry st.1 (i, k) l_key) (hr : hasEntry st.1 (k, j) r_key)
    (hlne : l_key ≠ "" ∨ k = i + 1) (hrne : r_key ≠ "" ∨ j = k + 1) :
    WFex (some (i, j)) tks (wtRule i j k l_key r_key st rule).1 := by
  simp only [wtRule, hrhs, List.getD_cons_zero, List.getD_cons_succ]
  split <;> split
  · exact wf_insert_node i j k l_key r_key rule.lhs st.1 ⟨h.1, h.2.1, h.2.2⟩
      hik hkj hl hr hlne hrne
  · exact h
  · exact wf_insert_node i j k l_key r_key rule.lhs st.1 ⟨h.1, h.2.1, h.2.2⟩
      hik hkj hl hr hlne hrne
  · exact h

theorem wf_wtSplit {tks : List String} (g : Pcfg) (i j : ℕ) (st : Chart × Probs) (k : ℕ)
    (h : WFex (some (i, j)) tks st.1) (hik : i < k) (hkj : k < j) :
    WFex (some (i, j)) tks (wtSplit g i j st k).1 := by
  have hkix : ((i, k) : Span) ≠ (i, j) := by simp [Prod.ext_iff]; omega
  have hkjx : ((k, j) : Span) ≠ (i, j) := by simp [Prod.ext_iff]; omega
  simp only [wtSplit]
  refine (@foldl_preserve _ _ (fun st' : Chart × Probs => WFex (some (i, j)) tks st'.1 ∧
      dget st'.1 (i, k) = dget st.1 (i, k) ∧ dget st'.1 (k, j) = dget st.1 (k, j))
      _ _ ?_ _ ⟨h, rfl, rfl⟩).1
  intro st1 l_key hlmem h1
  refine @foldl_preserve _ _ (fun st' : Chart × Probs => WFex (some (i, j)) tks st'.1 ∧
      dget st'.1 (i, k) = dget st.1 (i, k) ∧ dget st'.1 (k, j) = dget st.1 (k, j))
      _ _ ?_ _ h1
  intro st2 r_key hrmem h2
  refine @foldl_preserve _ _ (fun st' : Chart × Probs => WFex (some (i, j)) tks st'.1 ∧
      dget st'.1 (i, k) = dget st.1 (i, k) ∧ dget st'.1 (k, j) = dget st.1 (k, j))
      _ _ ?_ _ h2
  intro st3 rule hrule h3
  have hrhs : rule.rhs = [l_key, r_key] := of_decide_eq_true (List.mem_filter.mp hrule).2
  have hcellL : ∃ cell, dget st.1 (i, k) = some cell ∧ l_key ∈ dkeys cell := by
    cases hd : dget st.1 (i, k) with
    | none => rw [hd] at hlmem; simp [dkeys] at hlmem
    | some cell => exact ⟨cell, rfl, by rw [hd] at hlmem; simpa using hlmem⟩
  have hcellR : ∃ cell, dget st.1 (k, j) = some cell ∧ r_key ∈ dkeys cell := by
    cases hd : dget st.1 (k, j) with
    | none => rw [hd] at hrmem; simp [dkeys] at hrmem
    | some cell => exact ⟨cell, rfl, by rw [hd] at hrmem; simpa using hrmem⟩
  obtain ⟨cellL, hdL, hmemL⟩ := hcellL
  obtain ⟨cellR, hdR, hmemR⟩ := hcellR
  have hasL : hasEntry st3.1 (i, k) l_key := by
    obtain ⟨e, he⟩ := Option.isSome_iff_exists.mp ((dget_isSome_iff cellL l_key).mpr hmemL)
    exact ⟨cellL, e, by rw [h3.2.1]; exact hdL, he⟩
  have hasR : hasEntry st3.1 (k, j) r_key := by
    obtain ⟨e, he⟩ := Option.isSome_iff_exists.mp ((dget_isSome_iff cellR r_key).mpr hmemR)
    exact ⟨cellR, e, by rw [h3.2.2]; exact hdR, he⟩
  have hlne : l_key ≠ "" ∨ k = i + 1 := by
    by_cases hki : i + 1 < k
    · left
      intro hcontr
      have hb := h3.1.2.1 (i, k) cellL (by rw [h3.2.1]; exact hdL)
        (by simp [Prod.ext_iff]; omega) (by simpa using hki)
      rw [hcontr] at hmemL
      exact absurd hmemL ((dget_eq_none_iff cellL "").mp hb)
    · right; omega
  have hrne : r_key ≠ "" ∨ j = k + 1 := by
    by_cases hkj' : k + 1 < j
    · left
      intro hcontr
      have hb := h3.1.2.1 (k, j) cellR (by rw [h3.2.2]; exact hdR)
        (by simp [Prod.ext_iff]; omega) (by simpa using hkj')
      rw [hcontr] at hmemR
      exact absurd hmemR ((dget_eq_none_iff cellR "").mp hb)
    · right; omega
  refine ⟨wf_wtRule i j k l_key r_key st3 rule h3.1 hik hkj hrhs hasL hasR hlne hrne, ?_, ?_⟩
  · exact (wtRule_frame i j k l_key r_key st3 rule hkix).1.trans h3.2.1
  · exact (wtRule_frame i j k l_key r_key st3 rule hkjx).1.trans h3.2.2

theorem wf_wtCellStart {tks : List String} (i j : ℕ) (st : Chart × Probs)
    (h : WFex none tks st.1) (habs : dget st.1 (i, j) = none) :
    WFex (some (i, j)) tks (wtCellStart i j st).1 := by
  obtain ⟨hA, hB, hC⟩ := h
  have hext : ∀ s b, hasEntry st.1 s b →
      hasEntry (dset st.1 (i, j) [("", Entry.leaf "")]) s b :=
    fun s b => hasEntry_dset_fresh st.1 (i, j) _ habs
  refine ⟨?_, ?_, ?_⟩
  · intro s cell hc b e he
    rw [show (wtCellStart i j st).1 = dset st.1 (i, j) [("", Entry.leaf "")] from rfl,
      dget_dset] at hc
    split at hc
    · next hs =>
      subst hs
      cases hc
      rw [show dget [("", Entry.leaf "")] b
          = if b = "" then some (Entry.leaf "") else none from by
            by_cases hb : b = "" <;> simp [dget, hb]] at he
      split at he
      · next hb => exact Or.inl ⟨rfl, hb⟩
      · cases he
    · next hs =>
      rcases hA _ _ hc b e he with h' | h'
      · exact absurd h'.1 (by simp)
      · exact Or.inr (entryOK_mono hext h')
  · intro s cell hc hex hwide
    rw [show (wtCellStart i j st).1 = dset st.1 (i, j) [("", Entry.leaf "")] from rfl,
      dget_dset] at hc
    split at hc
    · next hs => exact absurd (by rw [hs]) hex
    · next hs => exact hB _ _ hc (by simp) hwide
  · intro s cell hc
    rw [show (wtCellStart i j st).1 = dset st.1 (i, j) [("", Entry.leaf "")] from rfl,
      dget_dset] at hc
    split at hc
    · next hs =>
      cases hc
      exact nodup_dkeys_singleton _ _
    · next hs => exact hC _ _ hc

theorem wf_wtCellFinish {tks : List String} (i j : ℕ) (st : Chart × Probs)
    (h : WFex (some (i, j)) tks st.1) (hw : i + 2 ≤ j) :
    WFex none tks (wtCellFinish i j st).1 := by
  obtain ⟨hA, hB, hC⟩ := h
  have hcellnd : (dkeys ((dget st.1 (i, j)).getD [])).Nodup := cellsNodup_getD hC _
  have hmono : ∀ s e, entryOK tks st.1 s e → entryOK tks (wtCellFinish i j st).1 s e := by
    intro s e he
    cases e with
    | leaf tok => exact he
    | node l r =>
      obtain ⟨k', h1, h2, h3, h4⟩ := he
      exact ⟨k', h1, h2,
        ⟨h3.1, h3.2.1, h3.2.2.1, hasEntry_pop st.1 i j hw h3.2.2.1 h3.2.2.2⟩,
        ⟨h4.1, h4.2.1, h4.2.2.1, hasEntry_pop st.1 i j hw h4.2.2.1 h4.2.2.2⟩⟩
  have hpop1 : (wtCellFinish i j st).1
      = dset st.1 (i, j) (dpop ((dget st.1 (i, j)).getD []) "") := rfl
  refine ⟨?_, ?_, ?_⟩
  · intro s cell hc b e he
    rw [hpop1, dget_dset] at hc
    split at hc
    · next hs =>
      subst hs
      cases hc
      by_cases hb : b = ""
      · subst hb
        rw [dget_dpop_self _ _ hcellnd] at he
        cases he
      · rw [dget_dpop_ne _ _ _ hb] at he
        cases hc₀ : dget st.1 (i, j) with
        | none => rw [hc₀, Option.getD_none] at he; cases he
        | some cell₀ =>
          rw [hc₀, Option.getD_some] at he
          rcases hA _ _ hc₀ b e he with h' | h'
          · exact absurd h'.2 hb
          · exact Or.inr (hmono _ _ h')
    · next hs =>
      rcases hA _ _ hc b e he with h' | h'
      · exact absurd (Option.some.inj h'.1).symm hs
      · exact Or.inr (hmono _ _ h')
  · intro s cell hc _ hwide
    rw [hpop1, dget_dset] at hc
    split at hc
    · next hs =>
      cases hc
      exact dget_dpop_self _ _ hcellnd
    · next hs =>
      refine hB _ _ hc ?_ hwide
      intro hx
      exact hs (Option.some.inj hx).symm
  · intro s cell hc
    rw [hpop1, dget_dset] at hc
    split at hc
    · next hs =>
      cases hc
      exact nodup_dkeys_dpop _ _ hcellnd
    · next hs => exact hC _ _ hc

theorem wf_wtCell {tks : List String} (g : Pcfg) (i j : ℕ) (st : Chart × Probs)
    (h : WFex none tks st.1) (habs : dget st.1 (i, j) = none) (hw : i + 2 ≤ j) :
    WFex none tks (wtCell g i j st).1 := by
  rw [wtCell]
  refine wf_wtCellFinish i j _ ?_ hw
  refine @foldl_preserve _ _ (fun st' : Chart × Probs => WFex (some (i, j)) tks st'.1)
    _ _ ?_ _ (wf_wtCellStart i j st h habs)
  intro st1 k hk h1
  rw [List.mem_range'_1] at hk
  exact wf_wtSplit g i j st1 k h1 (by omega) (by omega)

/-! Span domain bookkeeping: which spans own cells at each stage. -/

theorem chartDom_dset {P : Span → Prop} {t : Chart} (h : chartDom P t) {s₀ : Span}
    (hs₀ : P s₀) (c : Dict Symbol Entry) : chartDom P (dset t s₀ c) := by
  intro s hs
  rw [dget_dset] at hs
  split at hs
  · next he => subst he; exact hs₀
  · exact h s hs

theorem chartDom_cset {P : Span → Prop} {t : Chart} (h : chartDom P t) {s₀ : Span}
    (hs₀ : P s₀) (a : Symbol) (v : Entry) : chartDom P (cset t s₀ a v) :=
  chartDom_dset h hs₀ _

theorem chartDom_wtRule {P : Span → Prop} (i j k : ℕ) (l r : Symbol) (st : Chart × Probs)
    (rule : Rule) (h : chartDom P st.1) (hij : P (i, j)) :
    chartDom P (wtRule i j k l r st rule).1 := by
  simp only [wtRule]
  split <;> split
  · exact chartDom_cset h hij _ _
  · exact h
  · exact chartDom_cset h hij _ _
  · exact h

theorem chartDom_wtSplit {P : Span → Prop} (g : Pcfg) (i j : ℕ) (st : Chart × Probs)
    (k : ℕ) (h : chartDom P st.1) (hij : P (i, j)) :
    chartDom P (wtSplit g i j st k).1 := by
  simp only [wtSplit]
  refine @foldl_preserve _ _ (fun st' : Chart × Probs => chartDom P st'.1) _ _ ?_ _ h
  intro st1 l _ h1
  refine @foldl_preserve _ _ (fun st' : Chart × Probs => chartDom P st'.1) _ _ ?_ _ h1
  intro st2 r _ h2
  refine @foldl_preserve _ _ (fun st' : Chart × Probs => chartDom P st'.1) _ _ ?_ _ h2
  intro st3 rule _ h3
  exact chartDom_wtRule i j k l r st3 rule h3 hij

theorem chartDom_wtCell {P : Span → Prop} (g : Pcfg) (i j : ℕ) (st : Chart × Probs)
    (h : chartDom P st.1) (hij : P (i, j)) : chartDom P (wtCell g i j st).1 := by
  rw [wtCell]
  refine chartDom_dset ?_ hij _
  refine @foldl_preserve _ _ (fun st' : Chart × Probs => chartDom P st'.1) _ _ ?_ _
    (chartDom_dset h hij _)
  intro st1 k _ h1
  exact chartDom_wtSplit g i j st1 k h1 hij

/-- Indexed induction along a fold over a contiguous range. -/
theorem foldl_range'_ind {α : Type} {f : α → ℕ → α} {P : ℕ → α → Prop}
    (step : ∀ x st, P x st → P (x + 1) (f st x)) :
    ∀ (cnt x₀ : ℕ) (st : α), P x₀ st →
      P (x₀ + cnt) (List.foldl f st (List.range' x₀ cnt)) := by
  intro cnt
  induction cnt with
  | zero => intro x₀ st h; simpa using h
  | succ n ih =>
    intro x₀ st h
    rw [List.range'_succ, List.foldl_cons]
    have h2 := ih (x₀ + 1) (f st x₀) (step x₀ st h)
    rw [show x₀ + (n + 1) = x₀ + 1 + n from by omega]
    exact h2

theorem wf_wtInit (g : Pcfg) (tokens : List String) :
    WFex none tokens (wtInit g tokens).1 ∧
    chartDom (fun s => s.2 ≤ s.1 + 1) (wtInit g tokens).1 := by
  rw [wtInit]
  have hbase : (∀ s cell, dget (([], []) : Chart × Probs).1 s = some cell → cell = []) ∧
      chartDom (fun s : Span => s.2 ≤ s.1 + 1) (([], []) : Chart × Probs).1 := by
    constructor
    · intro s cell hc; cases hc
    · intro s hs; simp [dget] at hs
  have hspan := @foldl_preserve _ _
    (fun st : Chart × Probs => (∀ s cell, dget st.1 s = some cell → cell = []) ∧
      chartDom (fun s : Span => s.2 ≤ s.1 + 1) st.1)
    spanInit (List.range tokens.length) ?_ _ hbase
  · refine @foldl_preserve _ _
      (fun st : Chart × Probs => WFex none tokens st.1 ∧
        chartDom (fun s : Span => s.2 ≤ s.1 + 1) st.1)
      _ _ ?_ _ ⟨wf_of_empty hspan.1, hspan.2⟩
    intro st1 i _ h1
    refine @foldl_preserve _ _
      (fun st : Chart × Probs => WFex none tokens st.1 ∧
        chartDom (fun s : Span => s.2 ≤ s.1 + 1) st.1)
      _ _ ?_ _ h1
    intro st2 rule _ h2
    exact ⟨wf_leafStep h2.1 i rule.lhs, chartDom_cset h2.2 (by simp) _ _⟩
  · intro st1 i _ h1
    constructor
    · intro s cell hc
      rw [show (spanInit st1 i).1 = dset st1.1 (i, i + 1) [] from rfl, dget_dset] at hc
      split at hc
      · cases hc; rfl
      · exact h1.1 _ _ hc
    · exact chartDom_dset h1.2 (by simp) _

/-- The chart produced by parse_with_backpointers is well formed. -/
theorem wf_parse (g : Pcfg) (tokens : List String) :
    WFex none tokens (parse_with_backpointers g tokens).1 := by
  simp only [parse_with_backpointers]
  have hstep : ∀ (L : ℕ) (st : Chart × Probs),
      (2 ≤ L ∧ WFex none tokens st.1 ∧
        chartDom (fun s : Span => s.2 ≤ s.1 + (L - 1)) st.1) →
      (2 ≤ L + 1 ∧ WFex none tokens
          ((List.range (tokens.length - L + 1)).foldl
            (fun st i => wtCell g i (i + L) st) st).1 ∧
        chartDom (fun s : Span => s.2 ≤ s.1 + (L + 1 - 1))
          ((List.range (tokens.length - L + 1)).foldl
            (fun st i => wtCell g i (i + L) st) st).1) := by
    intro L st ⟨hL, hwf, hdom⟩
    rw [List.range_eq_range']
    have hinner : ∀ (x : ℕ) (st' : Chart × Probs),
        (WFex none tokens st'.1 ∧
          chartDom (fun s : Span => s.2 ≤ s.1 + (L - 1) ∨
            (s.2 = s.1 + L ∧ s.1 < x)) st'.1) →
        (WFex none tokens (wtCell g x (x + L) st').1 ∧
          chartDom (fun s : Span => s.2 ≤ s.1 + (L - 1) ∨
            (s.2 = s.1 + L ∧ s.1 < x + 1)) (wtCell g x (x + L) st').1) := by
      intro x st' ⟨hwf', hdom'⟩
      have habs : dget st'.1 (x, x + L) = none := by
        have hnot : ¬ (dget st'.1 (x, x + L)).isSome = true := by
          intro hs
          rcases hdom' _ hs with h' | h' <;> (simp at h'; try omega)
        cases hd : dget st'.1 (x, x + L) with
        | none => rfl
        | some c => rw [hd] at hnot; simp at hnot
      have hdom'' : chartDom (fun s : Span => s.2 ≤ s.1 + (L - 1) ∨
          (s.2 = s.1 + L ∧ s.1 < x + 1)) st'.1 := by
        intro s hs
        rcases hdom' s hs with h' | h'
        · exact Or.inl h'
        · exact Or.inr ⟨h'.1, by omega⟩
      refine ⟨wf_wtCell g x (x + L) st' hwf' habs (by omega), ?_⟩
      exact chartDom_wtCell g x (x + L) st' hdom'' (Or.inr ⟨rfl, by omega⟩)
    have hres := @foldl_range'_ind _ (fun st i => wtCell g i (i + L) st)
      (fun x st' => WFex none tokens st'.1 ∧
        chartDom (fun s : Span => s.2 ≤ s.1 + (L - 1) ∨
          (s.2 = s.1 + L ∧ s.1 < x)) st'.1)
      hinner (tokens.length - L + 1) 0 st
      ⟨hwf, fun s hs => Or.inl (hdom s hs)⟩
    refine ⟨by omega, hres.1, ?_⟩
    intro s hs
    rcases hres.2 s hs with h' | h' <;> omega
  have hfin := @foldl_range'_ind _
    (fun st length =>
      (List.range (tokens.length - length + 1)).foldl
        (fun st i => wtCell g i (i + length) st) st)
    (fun L st => 2 ≤ L ∧ WFex none tokens st.1 ∧
      chartDom (fun s : Span => s.2 ≤ s.1 + (L - 1)) st.1)
    hstep (tokens.length - 1) 2 (wtInit g tokens)
    ⟨by norm_num, (wf_wtInit g tokens).1, (wf_wtInit g tokens).2⟩
  exact hfin.2.1

/-- Tree reconstruction from a well formed chart: any present entry yields a
tree, the tree is valid over its span, and its root shape matches the
marker. -/
theorem get_tree_of_wf {tokens : List String} {t : Chart} (hwf : WFex none tokens t) :
    ∀ (fuel i j : ℕ) (nt : Symbol) (cell : Dict Symbol Entry) (e : Entry),
      j - i ≤ fuel → dget t (i, j) = some cell → dget cell nt = some e →
      ∃ tr, get_tree fuel t i j nt = some tr ∧ validTree tokens i j tr ∧
        (∀ tok, e = .leaf tok → tr = .leaf nt tok) ∧
        (∀ l r, e = .node l r → ∃ lt rt, tr = .node nt lt rt) := by
  intro fuel
  induction fuel with
  | zero =>
    intro i j nt cell e hfuel hcell hnt
    exfalso
    rcases hwf.1 _ _ hcell nt e hnt with h' | h'
    · simp at h'
    · cases e with
      | leaf tok =>
        obtain ⟨h1, _⟩ := h'
        simp at h1
        omega
      | node l r =>
        obtain ⟨k, h1, h2, _, _⟩ := h'
        simp at h1 h2
        omega
  | succ fuel ih =>
    intro i j nt cell e hfuel hcell hnt
    have hc : cget t (i, j) nt = some e := by
      rw [cget, hcell, Option.getD_some]
      exact hnt
    rcases hwf.1 _ _ hcell nt e hnt with h' | h'
    · simp at h'
    · cases e with
      | leaf tok =>
        obtain ⟨h1, h2⟩ := h'
        simp at h1
        refine ⟨.leaf nt tok, ?_, ?_, ?_, ?_⟩
        · simp [get_tree, hc]
        · subst h2
          rw [h1]
          exact validTree.leaf nt i
        · intro tok' he
          cases he
          rfl
        · intro l r he
          cases he
      | node l r =>
        obtain ⟨k, hik, hkj, hbL, hbR⟩ := h'
        obtain ⟨hli, hlj, _, hLent⟩ := hbL
        obtain ⟨hri, hrj, _, hRent⟩ := hbR
        have hik' : i < k := hik
        have hkj' : k < j := hkj
        obtain ⟨cellL, eL, hcL, heL⟩ := hLent
        obtain ⟨cellR, eR, hcR, heR⟩ := hRent
        obtain ⟨lt, hltg, hltv, _, _⟩ := ih i k l.1 cellL eL (by omega) hcL heL
        obtain ⟨rt, hrtg, hrtv, _, _⟩ := ih k j r.1 cellR eR (by omega) hcR heR
        have hgl : get_tree fuel t l.2.1 l.2.2 l.1 = some lt := by
          rw [hli, hlj]
          exact hltg
        have hgr : get_tree fuel t r.2.1 r.2.2 r.1 = some rt := by
          rw [hri, hrj]
          exact hrtg
        refine ⟨.node nt lt rt, ?_, ?_, ?_, ?_⟩
        · simp [get_tree, hc, hgl, hgr]
        · exact validTree.node nt hik' hkj' hltv hrtv
        · intro tok he
          cases he
        · intro l' r' he
          exact ⟨lt, rt, rfl⟩

/-- C6: for every entry present in a chart produced by
parse_with_backpointers, get_tree reconstructs a tree: a literal token marker
yields the leaf (symbol, token), a backpointer pair yields an internal node
with exactly two children in left to right order, the spans of the two
children of every internal node are contiguous and exactly cover the span of
the parent, and every leaf label matches the token at its width one span
(all packaged in validTree). -/
theorem c6_get_tree_shape (g : Pcfg) (tokens : List String) (i j : ℕ) (nt : Symbol)
    (cell : Dict Symbol Entry) (e : Entry)
    (hcell : dget (parse_with_backpointers g tokens).1 (i, j) = some cell)
    (hnt : dget cell nt = some e) :
    ∃ tr, get_tree (j - i) (parse_with_backpointers g tokens).1 i j nt = some tr ∧
      validTree tokens i j tr ∧
      (∀ tok, e = .leaf tok → tr = .leaf nt tok) ∧
      (∀ l r, e = .node l r → ∃ lt rt, tr = .node nt lt rt) :=
  get_tree_of_wf (wf_parse g tokens) (j - i) i j nt cell e le_rfl hcell hnt

theorem c6_get_tree_shape_witness :
    ∃ tr, get_tree 2 (parse_with_backpointers gS ["a", "b"]).1 0 2 "S" = some tr ∧
      validTree ["a", "b"] 0 2 tr ∧
      (∀ tok, Entry.node ("A", 0, 1) ("B", 1, 2) = .leaf tok → tr = .leaf "S" tok) ∧
      (∀ l r, Entry.node ("A", 0, 1) ("B", 1, 2) = .node l r →
        ∃ lt rt, tr = .node "S" lt rt) :=
  c6_get_tree_shape gS ["a", "b"] 0 2 "S"
    [("S", Entry.node ("A", 0, 1) ("B", 1, 2))] (Entry.node ("A", 0, 1) ("B", 1, 2))
    (by norm_num [parse_with_backpointers, wtCell, wtSplit, wtRule, wtCellStart,
      wtCellFinish, wtInit, spanInit, leafStep, candVal, cget, cset, dget, dset, dpop,
      dkeys, Pcfg.rhs_to_rules, gS, List.range', List.range_succ, List.filter])
    (by simp [dget])

/-! Lockstep simulation between the membership builder and the weighted
builder: preliminary lemmas. -/

theorem dset_dset_same {κ α : Type} [DecidableEq κ] (d : Dict κ α) (k : κ) (v w : α) :
    dset (dset d k v) k w = dset d k w := by
  induction d with
  | nil => simp [dset]
  | cons hd tl ih =>
    obtain ⟨k₀, v₀⟩ := hd
    by_cases h : k = k₀ <;> simp [dset, h, ih]

theorem cset_cset_same {α : Type} (t : Dict Span (Dict Symbol α)) (s : Span) (a : Symbol)
    (v w : α) : cset (cset t s a v) s a w = cset t s a w := by
  rw [cset, cset, cset, dget_dset_self, Option.getD_some, dset_dset_same, dset_dset_same]

theorem cellKeys_dset {α : Type} (t : Dict Span (Dict Symbol α)) (s s' : Span)
    (c : Dict Symbol α) : cellKeys (dset t s c) s'
      = if s' = s then some (dkeys c) else cellKeys t s' := by
  rw [cellKeys, dget_dset]
  split <;> rfl

theorem cellKeys_cset {α : Type} (t : Dict Span (Dict Symbol α)) (s s' : Span) (a : Symbol)
    (v : α) : cellKeys (cset t s a v) s'
      = if s' = s then some (dkeys (dset ((dget t s).getD []) a v)) else cellKeys t s' :=
  cellKeys_dset t s s' _

theorem getDkeys_congr {α β : Type} {t1 : Dict Span (Dict Symbol α)}
    {t2 : Dict Span (Dict Symbol β)} {s : Span} (h : cellKeys t1 s = cellKeys t2 s) :
    dkeys ((dget t1 s).getD []) = dkeys ((dget t2 s).getD []) := by
  rw [cellKeys, cellKeys] at h
  cases h1 : dget t1 s with
  | none =>
    cases h2 : dget t2 s with
    | none => rfl
    | some c => rw [h1, h2] at h; cases h
  | some c =>
    cases h2 : dget t2 s with
    | none => rw [h1, h2] at h; cases h
    | some c2 =>
      rw [h1, h2] at h
      simpa using h

theorem inv_keys_cset {α β : Type} {t1 : Dict Span (Dict Symbol α)}
    {t2 : Dict Span (Dict Symbol β)} (hkeys : ∀ s, cellKeys t1 s = cellKeys t2 s)
    (s₀ : Span) (a : Symbol) (v : α) (w : β) :
    ∀ s, cellKeys (cset t1 s₀ a v) s = cellKeys (cset t2 s₀ a w) s := by
  intro s
  rw [cellKeys_cset, cellKeys_cset]
  split
  · congr 1
    rw [dkeys_dset, dkeys_dset, getDkeys_congr (hkeys s₀)]
  · exact hkeys s

theorem cellKeys_cset_mem {α : Type} {t : Dict Span (Dict Symbol α)} {s₀ : Span}
    {a : Symbol} (hmem : a ∈ dkeys ((dget t s₀).getD [])) (v : α) :
    ∀ s, cellKeys (cset t s₀ a v) s = cellKeys t s := by
  intro s
  rw [cellKeys_cset]
  split
  · next hs =>
    subst hs
    rw [dkeys_dset, if_pos hmem, cellKeys]
    cases hc : dget t s with
    | none => rw [hc] at hmem; simp [dkeys] at hmem
    | some c => rfl
  · rfl

theorem invV_cset {ex : Option Span} {p : Probs} {s₀ : Span} {a : Symbol} {v : ℚ}
    (h : InvV ex p) (hv : 0 < v ∨ (a = "" ∧ v = 0 ∧ ex = some s₀)) :
    InvV ex (cset p s₀ a v) := by
  intro s cell hc b w hw
  rw [cset, dget_dset] at hc
  split at hc
  · next hs =>
    cases hc
    rw [dget_dset] at hw
    split at hw
    · next hb =>
      cases hw
      subst hb
      rcases hv with h' | h'
      · exact Or.inl h'
      · exact Or.inr ⟨h'.1, h'.2.1, by rw [hs]; exact h'.2.2⟩
    · next hb =>
      cases hc₀ : dget p s₀ with
      | none => rw [hc₀, Option.getD_none] at hw; cases hw
      | some cell₀ =>
        rw [hc₀, Option.getD_some] at hw
        rw [hs]
        exact h _ _ hc₀ b w hw
  · exact h _ _ hc b w hw

theorem invV_weaken {p : Probs} {s₀ : Span} (h : InvV none p) : InvV (some s₀) p := by
  intro s cell hc b w hw
  rcases h _ _ hc b w hw with h' | h'
  · exact Or.inl h'
  · exact absurd h'.2.2 (by simp)

theorem cget_some_of_mem_keys {α : Type} {t : Dict Span (Dict Symbol α)} {s : Span}
    {a : Symbol} (h : a ∈ dkeys ((dget t s).getD [])) : ∃ v, cget t s a = some v := by
  rw [cget]
  cases hv : dget ((dget t s).getD []) a with
  | none => exact absurd h ((dget_eq_none_iff _ _).mp hv)
  | some v => exact ⟨v, rfl⟩

theorem cget_eq_dget {α : Type} {p : Dict Span (Dict Symbol α)} {s : Span} {a : Symbol}
    {v : α} (h : cget p s a = some v) :
    ∃ cell, dget p s = some cell ∧ dget cell a = some v := by
  rw [cget] at h
  cases hs : dget p s with
  | none => rw [hs] at h; simp [dget] at h
  | some cell => rw [hs] at h; exact ⟨cell, rfl, h⟩

/-- Lockstep step for one rule candidate: the membership builder writes the
backpointer unconditionally (cky.py line 131) while the weighted builder
initialises the probability entry on first encounter and overwrites only on
strict improvement (cky.py lines 197-204); as long as both sub cell values
are present (hence positive) and the rule probability is positive, the new
candidate value is positive, so a first encounter always passes the strict
comparison against the fresh -inf entry and all three tables append the same
key, while a later encounter either overwrites all tables in place or leaves
all key lists untouched. -/
theorem inv_rule {tm : Chart} {st : Chart × Probs} (i j k : ℕ) (l_key r_key : Symbol)
    (rule : Rule) (hinv : Inv (some (i, j)) tm st)
    (hik : ((i, k) : Span) ≠ (i, j)) (hkj : ((k, j) : Span) ≠ (i, j))
    (hl : ∃ vl, cget st.2 (i, k) l_key = some vl)
    (hr : ∃ vr, cget st.2 (k, j) r_key = some vr)
    (hp : 0 < rule.prob) :
    Inv (some (i, j)) (memRule i j k tm rule) (wtRule i j k l_key r_key st rule) := by
  obtain ⟨hk1, hk2, hV, hN⟩ := hinv
  obtain ⟨vl, hvl⟩ := hl
  obtain ⟨vr, hvr⟩ := hr
  have hvlpos : 0 < vl := by
    obtain ⟨cell, hc, hin⟩ := cget_eq_dget hvl
    rcases hV _ _ hc _ _ hin with h | h
    · exact h
    · exact absurd (Option.some.inj h.2.2).symm hik
  have hvrpos : 0 < vr := by
    obtain ⟨cell, hc, hin⟩ := cget_eq_dget hvr
    rcases hV _ _ hc _ _ hin with h | h
    · exact h
    · exact absurd (Option.some.inj h.2.2).symm hkj
  have hpos : 0 < vl * vr * rule.prob := mul_pos (mul_pos hvlpos hvrpos) hp
  by_cases hfirst : (cget st.2 (i, j) rule.lhs).isNone
  · have hpdef : (if (cget st.2 (i, j) rule.lhs).isNone then cset st.2 (i, j) rule.lhs 0
        else st.2) = cset st.2 (i, j) rule.lhs 0 := if_pos hfirst
    have hcv : candVal (cset st.2 (i, j) rule.lhs 0) i k j l_key r_key rule
        = vl * vr * rule.prob := by
      rw [candVal, cget_cset_ne _ _ _ _ _ _ (Or.inl hik),
        cget_cset_ne _ _ _ _ _ _ (Or.inl hkj), hvl, hvr]
      rfl
    have heq : wtRule i j k l_key r_key st rule
        = (cset st.1 (i, j) rule.lhs
            (.node (rule.rhs.getD 0 "", i, k) (rule.rhs.getD 1 "", k, j)),
           cset st.2 (i, j) rule.lhs (vl * vr * rule.prob)) := by
      simp only [wtRule]
      rw [hpdef, hcv, cget_cset_self, Option.getD_some, if_pos hpos, cset_cset_same]
    rw [heq, memRule]
    exact ⟨inv_keys_cset hk1 _ _ _ _, inv_keys_cset hk2 _ _ _ _,
      invV_cset hV (Or.inl hpos), cellsNodup_cset hN (i, j) rule.lhs _⟩
  · have hpdef : (if (cget st.2 (i, j) rule.lhs).isNone then cset st.2 (i, j) rule.lhs 0
        else st.2) = st.2 := if_neg hfirst
    have hcv : candVal st.2 i k j l_key r_key rule = vl * vr * rule.prob := by
      rw [candVal, hvl, hvr]
      rfl
    by_cases hcmp : (cget st.2 (i, j) rule.lhs).getD 0 < vl * vr * rule.prob
    · have heq : wtRule i j k l_key r_key st rule
          = (cset st.1 (i, j) rule.lhs
              (.node (rule.rhs.getD 0 "", i, k) (rule.rhs.getD 1 "", k, j)),
             cset st.2 (i, j) rule.lhs (vl * vr * rule.prob)) := by
        simp only [wtRule]
        rw [hpdef, hcv, if_pos hcmp]
      rw [heq, memRule]
      exact ⟨inv_keys_cset hk1 _ _ _ _, inv_keys_cset hk2 _ _ _ _,
        invV_cset hV (Or.inl hpos), cellsNodup_cset hN (i, j) rule.lhs _⟩
    · have heq : wtRule i j k l_key r_key st rule = (st.1, st.2) := by
        simp only [wtRule]
        rw [hpdef, hcv, if_neg hcmp]
      have hne0 : cget st.2 (i, j) rule.lhs ≠ none := fun h => hfirst (by rw [h]; rfl)
      obtain ⟨v0, hv0⟩ := Option.ne_none_iff_exists'.mp hne0
      obtain ⟨cell2, hc2, hin2⟩ := cget_eq_dget hv0
      have hmem : rule.lhs ∈ dkeys ((dget tm (i, j)).getD []) := by
        rw [getDkeys_congr ((hk1 (i, j)).trans (hk2 (i, j))), hc2, Option.getD_some]
        exact List.mem_map_of_mem Prod.fst (dget_mem hin2)
      rw [heq, memRule]
      exact ⟨fun s => (cellKeys_cset_mem hmem _ s).trans (hk1 s), hk2, hV, hN⟩

/-- Lockstep for one split point k of the cell (i, j): the key lists read by
the membership builder and the weighted builder are equal by the invariant,
after which the two triple folds run in parallel; the sub cells at (i, k) and
(k, j) are never touched (the builders only write span (i, j)), so every rule
candidate sees present sub cell values. -/
theorem inv_split (g : Pcfg) (i j : ℕ) {tm : Chart} {st : Chart × Probs}
    (hprob : ∀ r ∈ g.rules, 0 < r.prob) (k : ℕ) (hik : i < k) (hkj : k < j)
    (hinv : Inv (some (i, j)) tm st) :
    Inv (some (i, j)) (memSplit g i j tm k) (wtSplit g i j st k) := by
  have hikne : ((i, k) : Span) ≠ (i, j) := by
    simp only [ne_eq, Prod.mk.injEq, not_and]
    intro _ h2
    omega
  have hkjne : ((k, j) : Span) ≠ (i, j) := by
    simp only [ne_eq, Prod.mk.injEq, not_and]
    intro h1
    omega
  have hlk : dkeys ((dget tm (i, k)).getD []) = dkeys ((dget st.1 (i, k)).getD []) :=
    getDkeys_congr (hinv.1 (i, k))
  have hrk : dkeys ((dget tm (k, j)).getD []) = dkeys ((dget st.1 (k, j)).getD []) :=
    getDkeys_congr (hinv.1 (k, j))
  simp only [memSplit, wtSplit, hlk, hrk]
  refine (@foldl_rel Chart (Chart × Probs) Symbol
    (fun tmc stc => Inv (some (i, j)) tmc stc ∧
      dget stc.2 (i, k) = dget st.2 (i, k) ∧ dget stc.2 (k, j) = dget st.2 (k, j))
    _ _ _ ?_ _ _ ⟨hinv, rfl, rfl⟩).1
  intro tmc stc l_key hlmem hR
  refine @foldl_rel Chart (Chart × Probs) Symbol
    (fun tmc stc => Inv (some (i, j)) tmc stc ∧
      dget stc.2 (i, k) = dget st.2 (i, k) ∧ dget stc.2 (k, j) = dget st.2 (k, j))
    _ _ _ ?_ _ _ hR
  intro tmd std r_key hrmem hR2
  refine @foldl_rel Chart (Chart × Probs) Rule
    (fun tmc stc => Inv (some (i, j)) tmc stc ∧
      dget stc.2 (i, k) = dget st.2 (i, k) ∧ dget stc.2 (k, j) = dget st.2 (k, j))
    _ _ _ ?_ _ _ hR2
  intro tme ste rule hrule hR3
  obtain ⟨hI, hc1, hc2⟩ := hR3
  have hp : 0 < rule.prob := hprob rule (List.mem_filter.mp hrule).1
  have hl : ∃ vl, cget ste.2 (i, k) l_key = some vl := by
    have hmem2 : l_key ∈ dkeys ((dget st.2 (i, k)).getD []) := by
      rw [← getDkeys_congr (hinv.2.1 (i, k))]
      exact hlmem
    obtain ⟨vl, hvl⟩ := cget_some_of_mem_keys hmem2
    exact ⟨vl, by rw [cget, hc1]; exact hvl⟩
  have hr : ∃ vr, cget ste.2 (k, j) r_key = some vr := by
    have hmem2 : r_key ∈ dkeys ((dget st.2 (k, j)).getD []) := by
      rw [← getDkeys_congr (hinv.2.1 (k, j))]
      exact hrmem
    obtain ⟨vr, hvr⟩ := cget_some_of_mem_keys hmem2
    exact ⟨vr, by rw [cget, hc2]; exact hvr⟩
  have hf := wtRule_frame i j k l_key r_key ste rule hikne
  have hg := wtRule_frame i j k l_key r_key ste rule hkjne
  exact ⟨inv_rule i j k l_key r_key rule hI hikne hkjne hl hr hp,
    hf.2.trans hc1, hg.2.trans hc2⟩

theorem inv_keys_dset {α β : Type} {t1 : Dict Span (Dict Symbol α)}
    {t2 : Dict Span (Dict Symbol β)} (hkeys : ∀ s, cellKeys t1 s = cellKeys t2 s)
    (s₀ : Span) {c1 : Dict Symbol α} {c2 : Dict Symbol β} (hc : dkeys c1 = dkeys c2) :
    ∀ s, cellKeys (dset t1 s₀ c1) s = cellKeys (dset t2 s₀ c2) s := by
  intro s
  rw [cellKeys_dset, cellKeys_dset]
  by_cases hs : s = s₀
  · rw [if_pos hs, if_pos hs, hc]
  · rw [if_neg hs, if_neg hs]
    exact hkeys s

theorem invV_dset_of {ex : Option Span} {p : Probs} {s₀ : Span} {c : Dict Symbol ℚ}
    (h : InvV ex p)
    (hc : ∀ a v, dget c a = some v → 0 < v ∨ (a = "" ∧ v = 0 ∧ ex = some s₀)) :
    InvV ex (dset p s₀ c) := by
  intro s cell hcell a v hv
  rw [dget_dset] at hcell
  split at hcell
  · next hs =>
    cases hcell
    rcases hc a v hv with h' | h'
    · exact Or.inl h'
    · exact Or.inr ⟨h'.1, h'.2.1, by rw [hs]; exact h'.2.2⟩
  · exact h _ _ hcell a v hv

/-- Lockstep for the sentinel insertion that opens a cell (cky.py lines
112 and 173-174): both builders create the cell with the single dummy key,
and the weighted builder stores the -inf sentinel (0 here), which InvV
permits exactly at the open cell. -/
theorem inv_cellStart (i j : ℕ) {tm : Chart} {st : Chart × Probs} (hinv : Inv none tm st) :
    Inv (some (i, j)) (dset tm (i, j) [("", Entry.leaf "")]) (wtCellStart i j st) := by
  obtain ⟨hk1, hk2, hV, hN⟩ := hinv
  have hV' : InvV (some (i, j)) st.2 := invV_weaken hV
  refine ⟨inv_keys_dset hk1 (i, j) rfl, inv_keys_dset hk2 (i, j) rfl, ?_, ?_⟩
  · refine invV_dset_of hV' ?_
    intro a v hv
    by_cases ha : a = ""
    · subst ha
      simp only [dget, if_pos rfl] at hv
      cases hv
      exact Or.inr ⟨rfl, rfl, rfl⟩
    · simp only [dget, if_neg ha] at hv
      cases hv
  · exact cellsNodup_dset hN (by simp [dkeys]) (i, j)

/-- Lockstep for the sentinel removal that closes a cell (cky.py lines 134
and 207-208): the dummy key is popped from all tables; duplicate freedom
makes the pop remove the key completely, so the closed cell satisfies the
unconditional positivity invariant again. -/
theorem inv_cellFinish (i j : ℕ) {tm : Chart} {st : Chart × Probs}
    (hinv : Inv (some (i, j)) tm st) :
    Inv none (dset tm (i, j) (dpop ((dget tm (i, j)).getD []) ""))
      (wtCellFinish i j st) := by
  obtain ⟨hk1, hk2, hV, hN⟩ := hinv
  have hknd : (dkeys ((dget st.2 (i, j)).getD [])).Nodup := cellsNodup_getD hN (i, j)
  have e1 : dkeys ((dget tm (i, j)).getD []) = dkeys ((dget st.1 (i, j)).getD []) :=
    getDkeys_congr (hk1 (i, j))
  have e2 : dkeys ((dget st.1 (i, j)).getD []) = dkeys ((dget st.2 (i, j)).getD []) :=
    getDkeys_congr (hk2 (i, j))
  refine ⟨inv_keys_dset hk1 (i, j) (dkeys_dpop_congr _ _ "" e1),
    inv_keys_dset hk2 (i, j) (dkeys_dpop_congr _ _ "" e2), ?_, ?_⟩
  · intro s cell hc a v hv
    simp only [wtCellFinish] at hc
    rw [dget_dset] at hc
    split at hc
    · next hs =>
      cases hc
      by_cases ha : a = ""
      · subst ha
        rw [dget_dpop_self _ _ hknd] at hv
        cases hv
      · rw [dget_dpop_ne _ _ _ ha] at hv
        cases hc2 : dget st.2 (i, j) with
        | none => rw [hc2] at hv; simp [dget] at hv
        | some cell2 =>
          rw [hc2, Option.getD_some] at hv
          rcases hV _ _ hc2 _ _ hv with h | h
          · exact Or.inl h
          · exact absurd h.1 ha
    · rcases hV _ _ hc _ _ hv with h | h
      · exact Or.inl h
      · next hs => exact absurd (Option.some.inj h.2.2).symm hs
  · exact cellsNodup_dset hN (nodup_dkeys_dpop _ _ hknd) (i, j)

/-- Lockstep for one complete cell (i, j): sentinel in, all split points in
parallel, sentinel out. -/
theorem inv_cell (g : Pcfg) (i j : ℕ) {tm : Chart} {st : Chart × Probs}
    (hprob : ∀ r ∈ g.rules, 0 < r.prob) (hinv : Inv none tm st) :
    Inv none (memCell g i j tm) (wtCell g i j st) := by
  simp only [memCell, wtCell]
  have hmid : Inv (some (i, j))
      ((List.range' (i + 1) (j - i - 1)).foldl (memSplit g i j)
        (dset tm (i, j) [("", Entry.leaf "")]))
      ((List.range' (i + 1) (j - i - 1)).foldl (wtSplit g i j) (wtCellStart i j st)) := by
    refine @foldl_rel Chart (Chart × Probs) ℕ (Inv (some (i, j))) _ _ _ ?_ _ _
      (inv_cellStart i j hinv)
    intro tmc stc k hk hI
    have hk' := List.mem_range'_1.mp hk
    exact inv_split g i j hprob k (by omega) (by omega) hI
  exact inv_cellFinish i j hmid

/-- Lockstep for table initialisation and leaf filling (cky.py lines 93-105
versus 153-166): both builders create the same leaf spans and then store each
unary rule under the same key; the weighted builder stores the rule
probability, positive by hypothesis. -/
theorem inv_init (g : Pcfg) (tokens : List String)
    (hprob : ∀ r ∈ g.rules, 0 < r.prob) :
    Inv none (memInit g tokens) (wtInit g tokens) := by
  have hbase : Inv none ([] : Chart) (([], []) : Chart × Probs) := by
    refine ⟨fun s => rfl, fun s => rfl, ?_, ?_⟩
    · intro s cell hc
      simp [dget] at hc
    · intro s cell hc
      simp [dget] at hc
  have h1 : Inv none
      ((List.range tokens.length).foldl (fun t i => dset t (i, i + 1) []) [])
      ((List.range tokens.length).foldl spanInit (([], []) : Chart × Probs)) := by
    refine @foldl_rel Chart (Chart × Probs) ℕ (Inv none) _ _ _ ?_ _ _ hbase
    intro tmc stc i _ hI
    obtain ⟨hk1, hk2, hV, hN⟩ := hI
    refine ⟨inv_keys_dset hk1 (i, i + 1) rfl, inv_keys_dset hk2 (i, i + 1) rfl, ?_, ?_⟩
    · refine invV_dset_of hV ?_
      intro a v hv
      simp [dget] at hv
    · exact cellsNodup_dset hN (by simp [dkeys]) (i, i + 1)
  simp only [memInit, wtInit]
  refine @foldl_rel Chart (Chart × Probs) ℕ (Inv none) _ _ _ ?_ _ _ h1
  intro tmc stc i _ hI
  refine @foldl_rel Chart (Chart × Probs) Rule (Inv none) _ _ _ ?_ _ _ hI
  intro tmd std rule hrule hI2
  obtain ⟨hk1, hk2, hV, hN⟩ := hI2
  simp only [leafStep]
  exact ⟨inv_keys_cset hk1 _ _ _ _, inv_keys_cset hk2 _ _ _ _,
    invV_cset hV (Or.inl (hprob rule (List.mem_filter.mp hrule).1)),
    cellsNodup_cset hN _ _ _⟩

/-- Lockstep for the whole construction: the membership chart of
is_in_language and the weighted chart of parse_with_backpointers keep
identical key sets for every span, and every stored probability value is
positive (a finite logarithm in the source). -/
theorem inv_parse (g : Pcfg) (tokens : List String)
    (hprob : ∀ r ∈ g.rules, 0 < r.prob) :
    Inv none (memTables g tokens) (parse_with_backpointers g tokens) := by
  simp only [memTables, parse_with_backpointers]
  refine @foldl_rel Chart (Chart × Probs) ℕ (Inv none) _ _ _ ?_ _ _
    (inv_init g tokens hprob)
  intro tmc stc length _ hI
  refine @foldl_rel Chart (Chart × Probs) ℕ (Inv none) _ _ _ ?_ _ _ hI
  intro tmd std i _ hI2
  exact inv_cell g i (i + length) hprob hI2

theorem isSome_dget_cset {α : Type} {t : Dict Span (Dict Symbol α)} {s₀ : Span}
    (h : (dget t s₀).isSome = true) (s : Span) (a : Symbol) (v : α) :
    (dget (cset t s a v) s₀).isSome = true := by
  by_cases hs : s₀ = s
  · subst hs
    rw [cset, dget_dset_self]
    rfl
  · rw [cset, dget_dset_ne _ _ _ _ hs]
    exact h

/-- After initialisation every leaf span owns a cell (cky.py lines
97-98). -/
theorem memInit_present (g : Pcfg) (tokens : List String) {i : ℕ}
    (hi : i < tokens.length) : (dget (memInit g tokens) (i, i + 1)).isSome = true := by
  simp only [memInit]
  have h1 : (dget ((List.range tokens.length).foldl
      (fun t k => dset t (k, k + 1) ([] : Dict Symbol Entry)) ([] : Chart))
      (i, i + 1)).isSome = true := by
    refine @foldl_through Chart ℕ _ _ i (List.mem_range.mpr hi) (fun _ => True)
      (fun t => (dget t (i, i + 1)).isSome = true) (fun _ _ _ _ => trivial) ?_ ?_ _ trivial
    · intro t y _ hM
      rw [dget_dset]
      split
      · rfl
      · exact hM
    · intro t _
      rw [dget_dset_self]
      rfl
  refine @foldl_preserve Chart ℕ (fun t => (dget t (i, i + 1)).isSome = true) _ _ ?_ _ h1
  intro t y _ hM
  refine @foldl_preserve Chart Rule (fun t => (dget t (i, i + 1)).isSome = true) _ _ ?_ _ hM
  intro t rule _ hM2
  exact isSome_dget_cset hM2 _ _ _

/-- Processing a cell never removes another cell of the membership chart. -/
theorem isSome_memCell (g : Pcfg) (i j : ℕ) {t : Chart} {s₀ : Span}
    (h : (dget t s₀).isSome = true) : (dget (memCell g i j t) s₀).isSome = true := by
  simp only [memCell]
  have hd : ∀ (t' : Chart) (c : Dict Symbol Entry), (dget t' s₀).isSome = true →
      (dget (dset t' (i, j) c) s₀).isSome = true := by
    intro t' c h'
    rw [dget_dset]
    split
    · rfl
    · exact h'
  refine hd _ _ ?_
  refine @foldl_preserve Chart ℕ (fun t' => (dget t' s₀).isSome = true) _ _ ?_ _ (hd _ _ h)
  intro t1 k _ h1
  simp only [memSplit]
  refine @foldl_preserve Chart Symbol (fun t' => (dget t' s₀).isSome = true) _ _ ?_ _ h1
  intro t2 lk _ h2
  refine @foldl_preserve Chart Symbol (fun t' => (dget t' s₀).isSome = true) _ _ ?_ _ h2
  intro t3 rk _ h3
  refine @foldl_preserve Chart Rule (fun t' => (dget t' s₀).isSome = true) _ _ ?_ _ h3
  intro t4 rule _ h4
  exact isSome_dget_cset h4 _ _ _

/-- For a non empty token sequence the membership chart ends with a cell for
the full span: at n = 1 it is created by the initialisation, and at n ≥ 2
the very last cell processed by the main loop is (0, n). -/
theorem memTables_present (g : Pcfg) (tokens : List String) (hne : tokens ≠ []) :
    ∃ cell, dget (memTables g tokens) (0, tokens.length) = some cell := by
  have hn : 0 < tokens.length := List.length_pos.mpr hne
  have main : (dget (memTables g tokens) (0, tokens.length)).isSome = true := by
    rcases Nat.lt_or_ge tokens.length 2 with h2 | h2
    · have h1 : tokens.length = 1 := by omega
      have heq : memTables g tokens = memInit g tokens := by
        simp only [memTables, h1]
        rfl
      rw [heq, h1]
      exact memInit_present g tokens (by omega)
    · simp only [memTables]
      refine @foldl_through Chart ℕ _ _ tokens.length
        (List.mem_range'_1.mpr ⟨h2, by omega⟩) (fun _ => True)
        (fun t => (dget t (0, tokens.length)).isSome = true)
        (fun _ _ _ _ => trivial) ?_ ?_ _ trivial
      · intro t y _ hM
        refine @foldl_preserve Chart ℕ
          (fun t' => (dget t' (0, tokens.length)).isSome = true) _ _ ?_ _ hM
        intro t' i _ h'
        exact isSome_memCell g i (i + y) h'
      · intro t _
        rw [show tokens.length - tokens.length + 1 = 1 from by omega]
        rw [show List.range 1 = [0] from rfl, List.foldl_cons, List.foldl_nil]
        simp only [memCell, Nat.zero_add]
        rw [dget_dset_self]
        rfl
  obtain ⟨cell, hc⟩ := Option.isSome_iff_exists.mp main
  exact ⟨cell, hc⟩

/-- C10: the membership chart built internally by is_in_language and the
weighted chart returned by parse_with_backpointers hold exactly the same
nonterminal keys at every span, and consequently, for a non empty token
sequence, is_in_language returns true exactly when the weighted chart's cell
for the full span (0, n) exists and is non empty.  The positivity hypothesis
on the rule probabilities renders the domain of math.log, which the source
applies to every rule probability it stores. -/
theorem c10_mem_wt_key_agreement (g : Pcfg) (tokens : List String)
    (hprob : ∀ r ∈ g.rules, 0 < r.prob) (hne : tokens ≠ []) :
    (∀ s, cellKeys (memTables g tokens) s
        = cellKeys (parse_with_backpointers g tokens).1 s) ∧
    (is_in_language g tokens = some true ↔
      ∃ cell, dget (parse_with_backpointers g tokens).1 (0, tokens.length) = some cell
        ∧ cell ≠ []) := by
  have hinv := inv_parse g tokens hprob
  refine ⟨hinv.1, ?_⟩
  obtain ⟨cellm, hcm⟩ := memTables_present g tokens hne
  have hkeys := hinv.1 (0, tokens.length)
  rw [cellKeys, cellKeys, hcm, Option.map_some'] at hkeys
  cases hcw : dget (parse_with_backpointers g tokens).1 (0, tokens.length) with
  | none =>
    rw [hcw, Option.map_none'] at hkeys
    cases hkeys
  | some cellw =>
    rw [hcw, Option.map_some'] at hkeys
    have hdk : dkeys cellm = dkeys cellw := Option.some.inj hkeys
    have hlen : 0 < cellm.length ↔ cellw ≠ [] := by
      rw [List.length_pos]
      constructor
      · intro h hnil
        apply h
        have hm : cellm.map Prod.fst = [] := by
          rw [show (cellm.map Prod.fst : List Symbol) = dkeys cellm from rfl, hdk, hnil]
          rfl
        exact List.map_eq_nil_iff.mp hm
      · intro h hnil
        apply h
        have hm : cellw.map Prod.fst = [] := by
          rw [show (cellw.map Prod.fst : List Symbol) = dkeys cellw from rfl, ← hdk, hnil]
          rfl
        exact List.map_eq_nil_iff.mp hm
    rw [is_in_language, hcm, Option.map_some']
    simp only [Option.some.injEq, decide_eq_true_eq]
    constructor
    · intro h
      exact ⟨cellw, rfl, hlen.mp h⟩
    · rintro ⟨cell, hcell, hne2⟩
      cases hcell
      exact hlen.mpr hne2

theorem c10_mem_wt_key_agreement_witness :
    (∀ s, cellKeys (memTables gS ["a", "b"]) s
        = cellKeys (parse_with_backpointers gS ["a", "b"]).1 s) ∧
    (is_in_language gS ["a", "b"] = some true ↔
      ∃ cell, dget (parse_with_backpointers gS ["a", "b"]).1 (0, ["a", "b"].length)
        = some cell ∧ cell ≠ []) :=
  c10_mem_wt_key_agreement gS ["a", "b"]
    (by
      intro r hr
      simp only [gS, List.mem_cons, List.not_mem_nil, or_false] at hr
      rcases hr with h | h | h <;> subst h <;> norm_num)
    (List.cons_ne_nil _ _)

end CKY
